import Mathlib

/-!
Verification of the circular-gesture recognition engine
(src/components/CircularGesturDetector.tsx).

The engine is embedded shallowly over the real numbers: JavaScript numbers
become `ℝ`, `Math.PI` becomes `Real.pi`, the JS remainder operator `%`
(truncated toward zero) becomes `jsMod`, `Math.floor` becomes `jsFloor`.
The per-gesture mutable shared values become the fields of `EngineState`;
the pan handlers `onBegin` / `onUpdate` / `onEnd` / `onFinalize` become
state-transforming functions that also return the list of callbacks they
emit, in emission order.  `onUpdateRA` is the body of `pan.onUpdate` after
the polar conversion (`r = Math.hypot(dx, dy)`, `a = Math.atan2(dy, dx)`);
`onUpdate` composes it with that conversion.
-/

noncomputable section

open Real

/-- JS truncation toward zero, as used by the `%` operator on numbers. -/
def jsTrunc (x : ℝ) : ℤ := if x < 0 then ⌈x⌉ else ⌊x⌋

/-- The JS remainder `x % y`: `x - y * trunc (x / y)`. -/
def jsMod (x y : ℝ) : ℝ := x - y * (jsTrunc (x / y) : ℝ)

/-- `Math.floor`, returning a JS number. -/
def jsFloor (x : ℝ) : ℝ := (⌊x⌋ : ℤ)

/-- Source lines 23-29: `((a + Math.PI) % TWO_PI + TWO_PI) % TWO_PI - Math.PI`. -/
def normalizeAngle (a : ℝ) : ℝ :=
  jsMod (jsMod (a + π) (2 * π) + 2 * π) (2 * π) - π

/-- Source lines 31-37: the two-level speed function (unused by the emitter). -/
def calculateSpeedMultiplier (delta : ℝ) : ℝ :=
  if delta < 0.3 then 1 else 1.2

/-- Rotation direction reported by the engine. -/
inductive Direction : Type
  | clockwise
  | counterclockwise
  deriving DecidableEq

/-- The callbacks the pan gesture emits, in the order they are issued. -/
inductive Event : Type
  | gestureStart : Event
  | rotationChanged (turns : ℝ) (direction : Direction) (speedMultiplier : ℝ) : Event
  | fullCircleCompleted (turns : ℝ) (direction : Direction) : Event
  | gestureEnd : Event

/-- Per-instance configuration and calibration (props plus the center shared
values, which default to `size / 2` per source lines 40-55). -/
structure Params : Type where
  size : ℝ
  minRadiusRatio : ℝ
  maxRadiusRatio : ℝ
  turnThreshold : ℝ
  centerX : ℝ
  centerY : ℝ
  centerR : ℝ

/-- The default props of the component: size 280, band ratios 0.45 / 0.85,
turn threshold 1, center and radius 140. -/
def defaultParams : Params :=
  { size := 280, minRadiusRatio := 0.45, maxRadiusRatio := 0.85,
    turnThreshold := 1, centerX := 140, centerY := 140, centerR := 140 }

/-- The per-gesture mutable shared values (source lines 57-70). -/
structure EngineState : Type where
  prevAngle : ℝ
  totalAngle : ℝ
  samples : ℕ
  radiusMean : ℝ
  radiusM2 : ℝ
  isInsideBand : Bool
  lastReportedTurn : ℝ
  lastReportedAngle : ℝ
  angularVelocity : ℝ
  lastUpdateTime : ℝ
  lastDirection : Option Direction
  lastRadius : ℝ

/-- The initial values of all shared values (all zero / unset). -/
def initState : EngineState :=
  { prevAngle := 0, totalAngle := 0, samples := 0, radiusMean := 0,
    radiusM2 := 0, isInsideBand := false, lastReportedTurn := 0,
    lastReportedAngle := 0, angularVelocity := 0, lastUpdateTime := 0,
    lastDirection := none, lastRadius := 0 }

/-- `resetStats` (source lines 72-85).  Note: it does not touch `prevAngle`. -/
def resetStats (st : EngineState) : EngineState :=
  { st with
      totalAngle := 0
      samples := 0
      radiusMean := 0
      radiusM2 := 0
      isInsideBand := false
      lastReportedTurn := 0
      lastReportedAngle := 0
      angularVelocity := 0
      lastUpdateTime := 0
      lastDirection := none
      lastRadius := 0 }

/-- One step of the Welford accumulator: `samples`, `radiusMean`, `radiusM2`. -/
structure WelfordAcc : Type where
  n : ℕ
  mean : ℝ
  M2 : ℝ

/-- Source lines 191-196: increment the count, move the mean by
`delta / n`, add `delta * delta2` to the squared-deviation accumulator. -/
def welfordStep (w : WelfordAcc) (r : ℝ) : WelfordAcc :=
  let n := w.n + 1
  let delta := r - w.mean
  let mean := w.mean + delta / (n : ℝ)
  let delta2 := r - mean
  { n := n, mean := mean, M2 := w.M2 + delta * delta2 }

/-- `pan.onBegin` (source lines 130-147) at the level of the initial angle:
emits gesture-start, stores the initial angle, resets the accumulators it
lists (and only those). -/
def onBeginRA (st : EngineState) (a : ℝ) : EngineState × List Event :=
  ({ st with
      prevAngle := a
      totalAngle := 0
      samples := 0
      radiusMean := 0
      radiusM2 := 0
      isInsideBand := false },
   [Event.gestureStart])

/-- `pan.onUpdate` (source lines 148-239) at the level of the computed
radius `r` and angle `a`:
dead-zone filter, wrap-corrected delta, micro-movement filter (only once a
`lastRadius` baseline exists), unconditional band flag (the band check is
commented out in the source), Welford update, EMA of the angular velocity,
direction from the sign of the smoothed velocity, reversal reset of
`totalAngle`, accumulation of the smoothed velocity, the continuous
rotation-changed report with speed multiplier 1, and the full-turn check. -/
def onUpdateRA (p : Params) (st : EngineState) (r a : ℝ) : EngineState × List Event :=
  if r < p.centerR * 0.05 then (st, [])
  else
    let d := normalizeAngle (a - st.prevAngle)
    if st.lastRadius > 0 ∧ |d| < 0.05 then
      ({ st with lastRadius := r, prevAngle := a }, [])
    else
      let w := welfordStep { n := st.samples, mean := st.radiusMean, M2 := st.radiusM2 } r
      let v := 0.4 * d + (1 - 0.4) * st.angularVelocity
      let dir := if v < 0 then Direction.clockwise else Direction.counterclockwise
      let ta := (if st.lastDirection ≠ none ∧ st.lastDirection ≠ some dir then 0
                 else st.totalAngle) + v
      let turns := ta / (2 * π)
      let base : EngineState :=
        { st with
            lastRadius := r
            isInsideBand := true
            samples := w.n
            radiusMean := w.mean
            radiusM2 := w.M2
            angularVelocity := v
            lastDirection := some dir
            totalAngle := ta
            prevAngle := a }
      if jsFloor |turns| > jsFloor |st.lastReportedTurn| ∧ jsFloor |turns| ≥ p.turnThreshold then
        ({ base with lastReportedTurn := turns },
         [Event.rotationChanged turns dir 1, Event.fullCircleCompleted turns dir])
      else
        (base, [Event.rotationChanged turns dir 1])

/-- `pan.onEnd` (source lines 240-267): final validation, optional
full-circle-completed, unconditional gesture-end, `resetStats`. -/
def onEndRA (p : Params) (st : EngineState) : EngineState × List Event :=
  let turns := st.totalAngle / (2 * π)
  let varR := if st.samples > 1 then st.radiusM2 / ((st.samples : ℝ) - 1) else 0
  let okBand := st.isInsideBand
  let okTurns := |turns| ≥ p.turnThreshold
  let okVariance := varR ≤ (p.centerR * 0.15) ^ 2
  (resetStats st,
   (if okBand = true ∧ okTurns ∧ okVariance then
      [Event.fullCircleCompleted turns
        (if turns < 0 then Direction.clockwise else Direction.counterclockwise)]
    else []) ++ [Event.gestureEnd])

/-- `pan.onFinalize` (source lines 268-272): gesture-end and `resetStats`. -/
def onFinalizeRA (st : EngineState) : EngineState × List Event :=
  (resetStats st, [Event.gestureEnd])

/-- Modelled from the spec: the gesture-handler library (not part of this
repository) delivers exactly one terminal transition per gesture session —
`end()` (the `pan.onEnd` handler) on a normal release, `cancel()` (the
`pan.onFinalize` handler) on an external interruption of the pointer
stream (spec section 4.2). -/
def terminate (p : Params) (st : EngineState) (cancelled : Bool) : EngineState × List Event :=
  if cancelled then onFinalizeRA st else onEndRA p st

/-- `Math.hypot` for the polar conversion in the handlers. -/
def hypot (x y : ℝ) : ℝ := Real.sqrt (x * x + y * y)

/-- `Math.atan2 y x` (range `(-π, π]`). -/
def atan2 (y x : ℝ) : ℝ :=
  if 0 < x then arctan (y / x)
  else if x < 0 then (if 0 ≤ y then arctan (y / x) + π else arctan (y / x) - π)
  else if 0 < y then π / 2
  else if y < 0 then -(π / 2)
  else 0

/-- `pan.onBegin` from pointer coordinates. -/
def onBegin (p : Params) (st : EngineState) (x y : ℝ) : EngineState × List Event :=
  onBeginRA st (atan2 (y - p.centerY) (x - p.centerX))

/-- `pan.onUpdate` from pointer coordinates. -/
def onUpdate (p : Params) (st : EngineState) (x y : ℝ) : EngineState × List Event :=
  onUpdateRA p st (hypot (x - p.centerX) (y - p.centerY))
    (atan2 (y - p.centerY) (x - p.centerX))

/-- Folding one move sample into an accumulated (state, events) pair. -/
def stepFold (p : Params) (acc : EngineState × List Event) (m : ℝ × ℝ) :
    EngineState × List Event :=
  ((onUpdateRA p acc.1 m.1 m.2).1, acc.2 ++ (onUpdateRA p acc.1 m.1 m.2).2)

/-- A tracking run: begin at initial angle `a0`, then process the move
samples (each a pair of radius and angle) in order. -/
def runRA (p : Params) (a0 : ℝ) (moves : List (ℝ × ℝ)) : EngineState × List Event :=
  moves.foldl (stepFold p) (onBeginRA initState a0)

/-- A full session: a tracking run followed by `pan.onEnd`. -/
def sessionEndRA (p : Params) (a0 : ℝ) (moves : List (ℝ × ℝ)) : EngineState × List Event :=
  ((onEndRA p (runRA p a0 moves).1).1,
   (runRA p a0 moves).2 ++ (onEndRA p (runRA p a0 moves).1).2)

/-- Recognizer for gesture-end events. -/
def isGE : Event → Bool
  | Event.gestureEnd => true
  | _ => false

/-- Recognizer for full-circle-completed events. -/
def isFC : Event → Bool
  | Event.fullCircleCompleted _ _ => true
  | _ => false

/-- Recognizer for rotation-changed events. -/
def isRC : Event → Bool
  | Event.rotationChanged _ _ _ => true
  | _ => false

/-- A list of move samples whose consecutive wrap-corrected deltas, starting
from the angle `prev`, all stay below the micro-movement threshold. -/
def smallChain : ℝ → List (ℝ × ℝ) → Prop
  | _, [] => True
  | prev, (_, a) :: rest => |normalizeAngle (a - prev)| < 0.05 ∧ smallChain a rest

/-- A circular path at constant radius `rho`, advancing by the fixed raw
angle `d` per sample; the angles are presented in principal form, as
`Math.atan2` would produce them. -/
def constMoves (rho d : ℝ) (N : ℕ) : List (ℝ × ℝ) :=
  (List.range N).map fun k => (rho, normalizeAngle (((k : ℝ) + 1) * d))

/-- The EMA-discounted step count: after `k` constant-delta samples the
accumulated angle is `d * u k` (closed form of the smoothed accumulation). -/
def u (k : ℕ) : ℝ := (k : ℝ) - 1.5 * (1 - (0.6 : ℝ) ^ k)

/-- A mid-gesture state for exercising the reversal branch: tracking
counterclockwise with a small positive smoothed velocity. -/
def c7st : EngineState :=
  { initState with
      lastDirection := some Direction.counterclockwise
      angularVelocity := 0.1
      lastRadius := 91
      lastReportedTurn := 0.37 }

/-- Five samples at constant radius 91: three counterclockwise steps of 3
radians, then two clockwise steps of 3 radians, forcing a direction
reversal at the fifth sample after more than pi radians have accumulated. -/
def c8moves : List (ℝ × ℝ) :=
  [(91, normalizeAngle 3), (91, normalizeAngle 6), (91, normalizeAngle 9),
   (91, normalizeAngle 6), (91, normalizeAngle 3)]

-- ======================================================================
-- normalizeAngle: characterization and range
-- ======================================================================

theorem twoPi_pos : (0 : ℝ) < 2 * π := by positivity

theorem jsTrunc_of_nonneg {x : ℝ} (h : 0 ≤ x) : jsTrunc x = ⌊x⌋ := by
  simp [jsTrunc, not_lt.2 h]

/-- The JS double-remainder idiom computes the floor-based residue. -/
theorem jsMod_jsMod (x T : ℝ) (hT : 0 < T) :
    jsMod (jsMod x T + T) T = x - T * (⌊x / T⌋ : ℤ) := by
  have hT0 : T ≠ 0 := ne_of_gt hT
  have hm1 : jsMod x T = x - T * (jsTrunc (x / T) : ℝ) := rfl
  have hwz : (jsMod x T + T) / T = x / T - (jsTrunc (x / T) : ℝ) + 1 := by
    rw [hm1]
    field_simp
  have hzt : 0 ≤ x / T - (jsTrunc (x / T) : ℝ) + 1 := by
    rcases lt_or_le (x / T) 0 with hneg | hpos
    · have he : jsTrunc (x / T) = ⌈x / T⌉ := by simp [jsTrunc, hneg]
      have h1 : (⌈x / T⌉ : ℝ) < x / T + 1 := Int.ceil_lt_add_one _
      rw [he]; linarith
    · have he : jsTrunc (x / T) = ⌊x / T⌋ := by simp [jsTrunc, not_lt.2 hpos]
      have h1 : (⌊x / T⌋ : ℝ) ≤ x / T := Int.floor_le _
      rw [he]; linarith
  have hwnn : 0 ≤ (jsMod x T + T) / T := by rw [hwz]; linarith
  have hfw : ⌊(jsMod x T + T) / T⌋ = ⌊x / T⌋ - jsTrunc (x / T) + 1 := by
    rw [hwz]
    have harg : x / T - (jsTrunc (x / T) : ℝ) + 1
        = x / T + ((1 - jsTrunc (x / T) : ℤ) : ℝ) := by push_cast; ring
    rw [harg, Int.floor_add_int]
    omega
  calc jsMod (jsMod x T + T) T
      = (jsMod x T + T) - T * ((⌊(jsMod x T + T) / T⌋ : ℤ) : ℝ) := by
        rw [jsMod, jsTrunc_of_nonneg hwnn]
    _ = x - T * (⌊x / T⌋ : ℤ) := by
        rw [hfw, hm1]
        push_cast
        ring

/-- The double-remainder construction computes the floor-based residue:
`normalizeAngle a = a - 2π * ⌊(a + π) / (2π)⌋`. -/
theorem normalizeAngle_eq_floor (a : ℝ) :
    normalizeAngle a = a - 2 * π * (⌊(a + π) / (2 * π)⌋ : ℤ) := by
  have h := jsMod_jsMod (a + π) (2 * π) twoPi_pos
  rw [normalizeAngle, h]
  ring

/-- The normalized angle lies in `[-π, π)`. -/
theorem normalizeAngle_mem (a : ℝ) :
    -π ≤ normalizeAngle a ∧ normalizeAngle a < π := by
  have hT : (0 : ℝ) < 2 * π := twoPi_pos
  have h := normalizeAngle_eq_floor a
  have hf1 : 0 ≤ Int.fract ((a + π) / (2 * π)) := Int.fract_nonneg _
  have hf2 : Int.fract ((a + π) / (2 * π)) < 1 := Int.fract_lt_one _
  have key : normalizeAngle a = 2 * π * Int.fract ((a + π) / (2 * π)) - π := by
    rw [h, Int.fract]
    field_simp
    ring
  constructor
  · rw [key]; nlinarith
  · rw [key]; nlinarith

theorem abs_normalizeAngle_le (a : ℝ) : |normalizeAngle a| ≤ π := by
  have h := normalizeAngle_mem a
  rw [abs_le]
  exact ⟨h.1, le_of_lt h.2⟩

/-- Shifting by a whole number of turns does not change the normalization. -/
theorem normalizeAngle_int_shift (a : ℝ) (k : ℤ) :
    normalizeAngle (a + 2 * π * (k : ℝ)) = normalizeAngle a := by
  have hT0 : (2 * π) ≠ 0 := ne_of_gt twoPi_pos
  rw [normalizeAngle_eq_floor, normalizeAngle_eq_floor]
  have harg : (a + 2 * π * (k : ℝ) + π) / (2 * π) = (a + π) / (2 * π) + (k : ℝ) := by
    field_simp
    ring
  rw [harg, Int.floor_add_int]
  push_cast
  ring

/-- Angles already in `[-π, π)` are fixed by the normalization. -/
theorem normalizeAngle_eq_self {a : ℝ} (h1 : -π ≤ a) (h2 : a < π) :
    normalizeAngle a = a := by
  have hT : (0 : ℝ) < 2 * π := twoPi_pos
  rw [normalizeAngle_eq_floor]
  have hfl : ⌊(a + π) / (2 * π)⌋ = 0 := by
    rw [Int.floor_eq_zero_iff, Set.mem_Ico]
    constructor
    · apply div_nonneg <;> linarith
    · rw [div_lt_one hT]; linarith
  rw [hfl]
  push_cast
  ring

theorem normalizeAngle_zero : normalizeAngle 0 = 0 :=
  normalizeAngle_eq_self (by linarith [pi_pos]) pi_pos

/-- The wrap-corrected delta of two principal angles equals the
wrap-corrected raw difference. -/
theorem normalizeAngle_sub (x y : ℝ) :
    normalizeAngle (normalizeAngle x - normalizeAngle y) = normalizeAngle (x - y) := by
  have hx := normalizeAngle_eq_floor x
  have hy := normalizeAngle_eq_floor y
  set kx : ℤ := ⌊(x + π) / (2 * π)⌋
  set ky : ℤ := ⌊(y + π) / (2 * π)⌋
  have : normalizeAngle x - normalizeAngle y = (x - y) + 2 * π * ((ky - kx : ℤ) : ℝ) := by
    rw [hx, hy]
    push_cast
    ring
  rw [this, normalizeAngle_int_shift]

-- ======================================================================
-- Shared evaluation helpers
-- ======================================================================

/-- Evaluation of `pan.onUpdate` on a sample that passes the dead-zone and
micro-movement filters. -/
theorem onUpdateRA_processed (p : Params) (st : EngineState) (r a : ℝ)
    (h1 : ¬ (r < p.centerR * 0.05))
    (h2 : ¬ (st.lastRadius > 0 ∧ |normalizeAngle (a - st.prevAngle)| < 0.05)) :
    onUpdateRA p st r a =
      (let d := normalizeAngle (a - st.prevAngle)
       let w := welfordStep { n := st.samples, mean := st.radiusMean, M2 := st.radiusM2 } r
       let v := 0.4 * d + (1 - 0.4) * st.angularVelocity
       let dir := if v < 0 then Direction.clockwise else Direction.counterclockwise
       let ta := (if st.lastDirection ≠ none ∧ st.lastDirection ≠ some dir then 0
                  else st.totalAngle) + v
       let turns := ta / (2 * π)
       let base : EngineState :=
         { st with
             lastRadius := r
             isInsideBand := true
             samples := w.n
             radiusMean := w.mean
             radiusM2 := w.M2
             angularVelocity := v
             lastDirection := some dir
             totalAngle := ta
             prevAngle := a }
       if jsFloor |turns| > jsFloor |st.lastReportedTurn| ∧ jsFloor |turns| ≥ p.turnThreshold then
         ({ base with lastReportedTurn := turns },
          [Event.rotationChanged turns dir 1, Event.fullCircleCompleted turns dir])
       else
         (base, [Event.rotationChanged turns dir 1])) := by
  simp only [onUpdateRA]
  rw [if_neg h1, if_neg h2]

-- ======================================================================
-- C5: normalizeAngle range and wrap-correction
-- ======================================================================

/-- C5 counterexample: the source `normalizeAngle` sends `π` to `-π`, which
is outside the claimed half-open interval `(-π, π]`; the actual range is
`[-π, π)`. -/
theorem c5_normalizeAngle_counterexample :
    normalizeAngle π = -π ∧ ¬ (-π < normalizeAngle π ∧ normalizeAngle π ≤ π) := by
  have h : normalizeAngle π = -π := by
    rw [normalizeAngle_eq_floor]
    have harg : (π + π) / (2 * π) = 1 := by
      rw [div_eq_one_iff_eq (ne_of_gt twoPi_pos)]
      ring
    rw [harg, Int.floor_one]
    push_cast
    ring
  refine ⟨h, ?_⟩
  rw [h]
  simp

/-- C5 (amended): `normalizeAngle` maps every real into the half-open
interval `[-π, π)` (not `(-π, π]`), differs from its argument by an integer
multiple of `2π`, and the wrap-corrected delta of the consecutive angles
179° and -179° is exactly `+2°` (`π / 90` radians), never `-358°`. -/
theorem c5_normalizeAngle_amended (a : ℝ) :
    (-π ≤ normalizeAngle a ∧ normalizeAngle a < π) ∧
    (∃ k : ℤ, a - normalizeAngle a = 2 * π * (k : ℝ)) ∧
    normalizeAngle (-(179 * π / 180) - 179 * π / 180) = π / 90 := by
  refine ⟨normalizeAngle_mem a, ⟨⌊(a + π) / (2 * π)⌋, ?_⟩, ?_⟩
  · rw [normalizeAngle_eq_floor]
    ring
  · have harg : -(179 * π / 180) - 179 * π / 180 = π / 90 + 2 * π * ((-1 : ℤ) : ℝ) := by
      push_cast
      ring
    rw [harg, normalizeAngle_int_shift]
    exact normalizeAngle_eq_self (by nlinarith [pi_pos]) (by nlinarith [pi_pos])

-- ======================================================================
-- C3: end-of-gesture validation
-- ======================================================================

/-- C3: on `end()`, a final full-circle-completed is emitted iff the band
flag is set, `|turns| ≥ turnThreshold` and the sample variance of the
radius is at most `(radius · 0.15)²`; the emitted event carries
`turns = totalAngle / 2π` and direction clockwise exactly when `turns < 0`;
and gesture-end is always emitted. -/
theorem c3_end_validation (p : Params) (st : EngineState) :
    ((∃ t d, Event.fullCircleCompleted t d ∈ (onEndRA p st).2) ↔
      (st.isInsideBand = true ∧
       |st.totalAngle / (2 * π)| ≥ p.turnThreshold ∧
       (if st.samples > 1 then st.radiusM2 / ((st.samples : ℝ) - 1) else 0)
         ≤ (p.centerR * 0.15) ^ 2)) ∧
    (∀ t d, Event.fullCircleCompleted t d ∈ (onEndRA p st).2 →
      t = st.totalAngle / (2 * π) ∧
      d = (if st.totalAngle / (2 * π) < 0 then Direction.clockwise
           else Direction.counterclockwise)) ∧
    Event.gestureEnd ∈ (onEndRA p st).2 := by
  simp only [onEndRA]
  set vR : ℝ := (if st.samples > 1 then st.radiusM2 / ((st.samples : ℝ) - 1) else 0) with hvR
  by_cases hc : st.isInsideBand = true ∧ |st.totalAngle / (2 * π)| ≥ p.turnThreshold ∧
      vR ≤ (p.centerR * 0.15) ^ 2
  · rw [if_pos hc]
    simp only [List.singleton_append]
    refine ⟨⟨fun _ => hc, fun _ => ⟨st.totalAngle / (2 * π), _, List.mem_cons_self _ _⟩⟩,
      ?_, by simp⟩
    intro t d hmem
    rcases List.mem_cons.1 hmem with heq | hmem2
    · injection heq with h1 h2
      exact ⟨h1, h2⟩
    · simp at hmem2
  · rw [if_neg hc]
    simp only [List.nil_append]
    refine ⟨⟨?_, fun hcc => absurd hcc hc⟩, ?_, List.mem_singleton_self _⟩
    · rintro ⟨t, d, hmem⟩
      simp at hmem
    · intro t d hmem
      simp at hmem

-- ======================================================================
-- C2: termination and cancellation
-- ======================================================================

/-- C2 counterexample: after `cancel()` the shared value `prevAngle` keeps
its in-gesture value (here 1) instead of returning to its zero initial
value — `resetStats` never touches `prevAngle`. -/
theorem c2_cancel_counterexample :
    (onFinalizeRA (onBeginRA initState 1).1).1.prevAngle = 1 ∧
    initState.prevAngle = 0 ∧ (1 : ℝ) ≠ 0 :=
  ⟨rfl, rfl, one_ne_zero⟩

/-- C2 (amended): each terminal transition — `end()` or `cancel()` — emits
exactly one gesture-end; `cancel()` resets every mutable shared value
except `prevAngle` to its initial value and never emits
full-circle-completed. -/
theorem c2_termination_amended (p : Params) (st : EngineState) (cancelled : Bool) :
    (terminate p st cancelled).2.countP isGE = 1 ∧
    (terminate p st true).1 = { initState with prevAngle := st.prevAngle } ∧
    (∀ t d, Event.fullCircleCompleted t d ∉ (terminate p st true).2) := by
  refine ⟨?_, rfl, by intro t d h; simp [terminate, onFinalizeRA] at h⟩
  cases cancelled
  · simp only [terminate, Bool.false_eq_true, if_false, onEndRA]
    split_ifs with h <;> simp [isGE]
  · simp [terminate, onFinalizeRA, isGE]

-- ======================================================================
-- C9: Welford accumulator equivalence
-- ======================================================================

/-- Sum of squared deviations in expanded form. -/
theorem sum_sq_dev (rs : List ℝ) (m : ℝ) :
    (rs.map (fun r => (r - m) ^ 2)).sum
      = (rs.map (fun r => r ^ 2)).sum - 2 * m * rs.sum + rs.length * m ^ 2 := by
  induction rs with
  | nil => simp
  | cons x xs ih =>
    simp only [List.map_cons, List.sum_cons, List.length_cons, ih]
    push_cast
    ring

/-- The running invariant of the Welford fold: count, mean and the
sum-of-squares form of the accumulator. -/
theorem welford_fold_invariant (rs : List ℝ) :
    (rs.foldl welfordStep ⟨0, 0, 0⟩).n = rs.length ∧
    (rs.foldl welfordStep ⟨0, 0, 0⟩).mean = rs.sum / rs.length ∧
    (rs.foldl welfordStep ⟨0, 0, 0⟩).M2
      = (rs.map (fun r => r ^ 2)).sum - rs.sum ^ 2 / rs.length := by
  induction rs using List.reverseRecOn with
  | nil => simp [welfordStep]
  | append_singleton xs x ih =>
    obtain ⟨hn, hmean, hM2⟩ := ih
    rw [List.foldl_append]
    simp only [List.foldl_cons, List.foldl_nil]
    rcases List.eq_nil_or_concat xs with hnil | _
    · subst hnil
      simp [welfordStep]
    · have hlen : 0 < xs.length := by
        cases xs with
        | nil => simp_all
        | cons y ys => simp
      have hlenR : (0 : ℝ) < xs.length := by exact_mod_cast hlen
      have hlen1 : (0 : ℝ) < (xs.length : ℝ) + 1 := by linarith
      refine ⟨?_, ?_, ?_⟩
      · simp [welfordStep, hn]
      · simp only [welfordStep, hn, hmean]
        rw [List.sum_append, List.length_append]
        push_cast
        field_simp
        ring
      · simp only [welfordStep, hn, hmean, hM2]
        rw [List.sum_append, List.length_append, List.map_append, List.sum_append]
        push_cast
        field_simp
        ring

/-- C9: folding the source Welford step over any radius sequence yields the
arithmetic mean in `radiusMean` and the exact sum of squared deviations in
`radiusSumSquaredDeviation`, so dividing by `n - 1` gives the sample
variance. -/
theorem c9_welford_equivalence (rs : List ℝ) :
    (rs.foldl welfordStep ⟨0, 0, 0⟩).n = rs.length ∧
    (rs.foldl welfordStep ⟨0, 0, 0⟩).mean = rs.sum / rs.length ∧
    (rs.foldl welfordStep ⟨0, 0, 0⟩).M2
      = (rs.map (fun r => (r - rs.sum / rs.length) ^ 2)).sum := by
  obtain ⟨hn, hmean, hM2⟩ := welford_fold_invariant rs
  refine ⟨hn, hmean, ?_⟩
  rw [hM2, sum_sq_dev]
  rcases List.eq_nil_or_concat rs with hnil | _
  · subst hnil
    simp
  · have hlen : 0 < rs.length := by
      rcases rs with _ | ⟨y, ys⟩
      · simp_all
      · simp
    have hlenR : (0 : ℝ) < rs.length := by exact_mod_cast hlen
    field_simp
    ring

-- ======================================================================
-- C10: the emitted speed multiplier is always 1
-- ======================================================================

/-- C10: every rotation-changed emission carries speed multiplier exactly 1;
the two-level `calculateSpeedMultiplier` never determines an emitted value. -/
theorem c10_speed_multiplier_one (p : Params) (st : EngineState) (r a t : ℝ)
    (d : Direction) (s : ℝ)
    (h : Event.rotationChanged t d s ∈ (onUpdateRA p st r a).2) : s = 1 := by
  simp only [onUpdateRA] at h
  split_ifs at h <;> simp_all

/-- C10 witness: the first move sample of a concrete session emits a
rotation-changed event, and its speed multiplier is 1. -/
theorem c10_speed_multiplier_one_witness : (1 : ℝ) = 1 := by
  refine c10_speed_multiplier_one defaultParams (onBeginRA initState 0).1 91 0 0
    Direction.counterclockwise 1 ?_
  rw [onUpdateRA_processed]
  · simp only [onBeginRA, initState]
    norm_num [normalizeAngle_zero, jsFloor, Int.floor_zero]
  · simp only [defaultParams]
    norm_num
  · simp only [onBeginRA, initState]
    norm_num

-- ======================================================================
-- More evaluation helpers
-- ======================================================================

/-- A sample inside the dead zone changes nothing and emits nothing. -/
theorem onUpdateRA_dead (p : Params) (st : EngineState) (r a : ℝ)
    (h1 : r < p.centerR * 0.05) : onUpdateRA p st r a = (st, []) := by
  simp only [onUpdateRA, if_pos h1]

/-- A micro-movement sample only refreshes the baseline and emits nothing. -/
theorem onUpdateRA_micro (p : Params) (st : EngineState) (r a : ℝ)
    (h1 : ¬ (r < p.centerR * 0.05))
    (h2 : st.lastRadius > 0 ∧ |normalizeAngle (a - st.prevAngle)| < 0.05) :
    onUpdateRA p st r a = ({ st with lastRadius := r, prevAngle := a }, []) := by
  simp only [onUpdateRA]
  rw [if_neg h1, if_pos h2]

/-- The fire-independent state fields of a processed sample. -/
theorem onUpdateRA_core (p : Params) (st : EngineState) (r a : ℝ)
    (h1 : ¬ (r < p.centerR * 0.05))
    (h2 : ¬ (st.lastRadius > 0 ∧ |normalizeAngle (a - st.prevAngle)| < 0.05)) :
    (onUpdateRA p st r a).1.prevAngle = a ∧
    (onUpdateRA p st r a).1.lastRadius = r ∧
    (onUpdateRA p st r a).1.isInsideBand = true ∧
    (onUpdateRA p st r a).1.samples = st.samples + 1 ∧
    (onUpdateRA p st r a).1.angularVelocity
      = 0.4 * normalizeAngle (a - st.prevAngle) + (1 - 0.4) * st.angularVelocity ∧
    (onUpdateRA p st r a).1.lastDirection
      = some (if 0.4 * normalizeAngle (a - st.prevAngle) + (1 - 0.4) * st.angularVelocity < 0
              then Direction.clockwise else Direction.counterclockwise) ∧
    (onUpdateRA p st r a).1.totalAngle
      = (if st.lastDirection ≠ none ∧
            st.lastDirection ≠ some (if 0.4 * normalizeAngle (a - st.prevAngle)
                + (1 - 0.4) * st.angularVelocity < 0
              then Direction.clockwise else Direction.counterclockwise)
         then 0 else st.totalAngle)
        + (0.4 * normalizeAngle (a - st.prevAngle) + (1 - 0.4) * st.angularVelocity) ∧
    (onUpdateRA p st r a).1.radiusMean
      = st.radiusMean + (r - st.radiusMean) / ((st.samples : ℝ) + 1) ∧
    (onUpdateRA p st r a).1.radiusM2
      = st.radiusM2 + (r - st.radiusMean)
          * (r - (st.radiusMean + (r - st.radiusMean) / ((st.samples : ℝ) + 1))) := by
  simp only [onUpdateRA_processed p st r a h1 h2]
  split_ifs <;> simp_all [welfordStep]

/-- The emissions and turn bookkeeping of a processed sample: exactly one
rotation-changed, and a full-circle-completed exactly when the floor of the
new turn count strictly exceeds the recorded one and reaches the threshold. -/
theorem onUpdateRA_fire (p : Params) (st : EngineState) (r a : ℝ)
    (h1 : ¬ (r < p.centerR * 0.05))
    (h2 : ¬ (st.lastRadius > 0 ∧ |normalizeAngle (a - st.prevAngle)| < 0.05)) :
    (onUpdateRA p st r a).2.countP isRC = 1 ∧
    ((onUpdateRA p st r a).2.filter isFC =
      (if jsFloor |(onUpdateRA p st r a).1.totalAngle / (2 * π)| > jsFloor |st.lastReportedTurn| ∧
          jsFloor |(onUpdateRA p st r a).1.totalAngle / (2 * π)| ≥ p.turnThreshold
       then [Event.fullCircleCompleted ((onUpdateRA p st r a).1.totalAngle / (2 * π))
               (if 0.4 * normalizeAngle (a - st.prevAngle) + (1 - 0.4) * st.angularVelocity < 0
                then Direction.clockwise else Direction.counterclockwise)]
       else [])) ∧
    ((onUpdateRA p st r a).1.lastReportedTurn =
      (if jsFloor |(onUpdateRA p st r a).1.totalAngle / (2 * π)| > jsFloor |st.lastReportedTurn| ∧
          jsFloor |(onUpdateRA p st r a).1.totalAngle / (2 * π)| ≥ p.turnThreshold
       then (onUpdateRA p st r a).1.totalAngle / (2 * π) else st.lastReportedTurn)) := by
  simp only [onUpdateRA_processed p st r a h1 h2]
  split_ifs <;> simp_all [isRC, isFC]

/-- One EMA step keeps the smoothed velocity within `[-π, π]`. -/
theorem ema_bound (d v : ℝ) (hd : |d| ≤ π) (hv : |v| ≤ π) :
    |0.4 * d + (1 - 0.4) * v| ≤ π := by
  have h1 := abs_add (0.4 * d) ((1 - 0.4) * v)
  rw [abs_mul, abs_mul] at h1
  have h04 : |(0.4 : ℝ)| = 0.4 := by norm_num
  have h06 : |(1 - 0.4 : ℝ)| = 1 - 0.4 := by norm_num
  rw [h04, h06] at h1
  linarith

/-- A total angle below `6` in magnitude is less than one full turn. -/
theorem turns_small {t : ℝ} (h : |t| < 6) : |t / (2 * π)| < 1 := by
  rw [abs_div, abs_of_pos twoPi_pos, div_lt_one twoPi_pos]
  have := pi_gt_three
  linarith

/-- The full-turn trigger cannot fire when the new turn count is below one. -/
theorem fire_cond_false (x y tt : ℝ) (hx : |x| < 1) :
    ¬ (jsFloor |x| > jsFloor |y| ∧ jsFloor |x| ≥ tt) := by
  rintro ⟨hgt, -⟩
  have h0 : jsFloor |x| = 0 := by
    have : ⌊|x|⌋ = 0 := Int.floor_eq_zero_iff.2 (Set.mem_Ico.2 ⟨abs_nonneg _, hx⟩)
    simp [jsFloor, this]
  have h1 : (0 : ℝ) ≤ jsFloor |y| := by
    have : (0 : ℤ) ≤ ⌊|y|⌋ := Int.floor_nonneg.2 (abs_nonneg _)
    simp only [jsFloor]
    exact_mod_cast this
  rw [h0] at hgt
  linarith

/-- One update never moves the smoothed angular velocity out of `[-π, π]`. -/
theorem velocity_le_pi_step (p : Params) (st : EngineState) (r a : ℝ)
    (hv : |st.angularVelocity| ≤ π) :
    |(onUpdateRA p st r a).1.angularVelocity| ≤ π := by
  have hb := ema_bound (normalizeAngle (a - st.prevAngle)) st.angularVelocity
    (abs_normalizeAngle_le _) hv
  by_cases h1 : r < p.centerR * 0.05
  · rw [onUpdateRA_dead p st r a h1]
    exact hv
  by_cases h2 : st.lastRadius > 0 ∧ |normalizeAngle (a - st.prevAngle)| < 0.05
  · rw [onUpdateRA_micro p st r a h1 h2]
    exact hv
  · obtain ⟨-, -, -, -, hvel, -⟩ := onUpdateRA_core p st r a h1 h2
    rw [hvel]
    exact hb

/-- In every reachable tracking state the smoothed velocity is in `[-π, π]`. -/
theorem run_velocity_le_pi (p : Params) (a0 : ℝ) (moves : List (ℝ × ℝ)) :
    |(runRA p a0 moves).1.angularVelocity| ≤ π := by
  suffices h : ∀ (ms : List (ℝ × ℝ)) (acc : EngineState × List Event),
      |acc.1.angularVelocity| ≤ π →
      |(ms.foldl (stepFold p) acc).1.angularVelocity| ≤ π by
    apply h
    have : (onBeginRA initState a0).1.angularVelocity = 0 := rfl
    rw [this]
    simpa using le_of_lt pi_pos
  intro ms
  induction ms with
  | nil => intro acc h; simpa using h
  | cons m rest ih =>
    intro acc h
    rw [List.foldl_cons]
    exact ih _ (velocity_le_pi_step p acc.1 m.1 m.2 h)

-- ======================================================================
-- C7: direction reversal resets totalAngle but not the turn bookkeeping
-- ======================================================================

/-- C7: at a processed sample where the recorded direction is set and
differs from the direction derived from the new smoothed velocity, the
post-state `totalAngle` equals just the new smoothed velocity (the
accumulator restarts from zero), while `lastReportedTurn` is unchanged. -/
theorem c7_reversal_resets_totalAngle (p : Params) (st : EngineState) (r a : ℝ)
    (h1 : ¬ (r < p.centerR * 0.05))
    (h2 : ¬ (st.lastRadius > 0 ∧ |normalizeAngle (a - st.prevAngle)| < 0.05))
    (hrev : st.lastDirection ≠ none ∧
      st.lastDirection ≠ some (if 0.4 * normalizeAngle (a - st.prevAngle)
          + (1 - 0.4) * st.angularVelocity < 0
        then Direction.clockwise else Direction.counterclockwise))
    (hv : |st.angularVelocity| ≤ π) :
    (onUpdateRA p st r a).1.totalAngle
      = 0.4 * normalizeAngle (a - st.prevAngle) + (1 - 0.4) * st.angularVelocity ∧
    (onUpdateRA p st r a).1.lastReportedTurn = st.lastReportedTurn := by
  obtain ⟨-, -, -, -, -, -, hta, -, -⟩ := onUpdateRA_core p st r a h1 h2
  obtain ⟨-, -, hlrt⟩ := onUpdateRA_fire p st r a h1 h2
  have hta2 : (onUpdateRA p st r a).1.totalAngle
      = 0.4 * normalizeAngle (a - st.prevAngle) + (1 - 0.4) * st.angularVelocity := by
    rw [hta, if_pos hrev, zero_add]
  refine ⟨hta2, ?_⟩
  have hsmall : |(onUpdateRA p st r a).1.totalAngle / (2 * π)| < 1 := by
    rw [hta2]
    refine turns_small ?_
    have hb := ema_bound (normalizeAngle (a - st.prevAngle)) st.angularVelocity
      (abs_normalizeAngle_le _) hv
    have := pi_lt_four
    calc |0.4 * normalizeAngle (a - st.prevAngle) + (1 - 0.4) * st.angularVelocity| ≤ π := hb
      _ < 6 := by linarith
  rw [hlrt, if_neg (fire_cond_false _ _ _ hsmall)]

/-- C7 witness: a concrete reversal — counterclockwise history, clockwise
sample — restarts `totalAngle` at the new smoothed velocity and leaves
`lastReportedTurn` at 0.37. -/
theorem c7_reversal_witness :
    (onUpdateRA defaultParams c7st 91 (-0.5)).1.totalAngle
      = 0.4 * normalizeAngle (-0.5 - c7st.prevAngle) + (1 - 0.4) * c7st.angularVelocity ∧
    (onUpdateRA defaultParams c7st 91 (-0.5)).1.lastReportedTurn = c7st.lastReportedTurn := by
  have hprev : c7st.prevAngle = 0 := rfl
  have hna : normalizeAngle (-0.5 - c7st.prevAngle) = -0.5 := by
    rw [hprev, sub_zero]
    refine normalizeAngle_eq_self ?_ ?_ <;> · have := pi_gt_three; linarith
  refine c7_reversal_resets_totalAngle defaultParams c7st 91 (-0.5) ?_ ?_ ?_ ?_
  · have : defaultParams.centerR = 140 := rfl
    rw [this]
    norm_num
  · rintro ⟨-, habs⟩
    rw [hna, abs_lt] at habs
    norm_num at habs
  · constructor
    · simp [c7st]
    · rw [hna]
      have hc : c7st.angularVelocity = 0.1 := rfl
      rw [hc]
      have hcond : (0.4 * (-0.5 : ℝ) + (1 - 0.4) * 0.1 < 0) := by norm_num
      rw [if_pos hcond]
      have hld : c7st.lastDirection = some Direction.counterclockwise := rfl
      rw [hld]
      simp
  · have hc : c7st.angularVelocity = 0.1 := rfl
    rw [hc]
    have := pi_gt_three
    rw [abs_of_pos (by norm_num : (0.1:ℝ) > 0)]
    linarith

-- ======================================================================
-- C8: totalAngle jumps
-- ======================================================================

/-- The tracking state of a run, as an iterated state-only fold. -/
theorem runRA_fst (p : Params) (a0 : ℝ) (moves : List (ℝ × ℝ)) :
    (runRA p a0 moves).1
      = moves.foldl (fun s m => (onUpdateRA p s m.1 m.2).1) (onBeginRA initState a0).1 := by
  have key : ∀ (ms : List (ℝ × ℝ)) (acc : EngineState × List Event),
      (ms.foldl (stepFold p) acc).1
        = ms.foldl (fun s m => (onUpdateRA p s m.1 m.2).1) acc.1 := by
    intro ms
    induction ms with
    | nil => intro acc; rfl
    | cons m rest ih =>
      intro acc
      rw [List.foldl_cons, List.foldl_cons, ih]
      rfl
  exact key moves _

/-- C8 counterexample: in the concrete five-sample gesture `c8moves`, the
fifth update (a direction reversal after about 5.68 radians have
accumulated) changes `totalAngle` by more than `π` in a single update,
because the reversal branch resets the accumulator to zero. -/
theorem c8_jump_counterexample :
    |(runRA defaultParams 0 c8moves).1.totalAngle
      - (runRA defaultParams 0 [((91 : ℝ), normalizeAngle 3), (91, normalizeAngle 6),
          (91, normalizeAngle 9), (91, normalizeAngle 6)]).1.totalAngle| > π := by
  have hpi4 := pi_lt_four
  have hpi3 := pi_gt_three
  have hn3 : normalizeAngle (3 : ℝ) = 3 :=
    normalizeAngle_eq_self (by linarith) (by have := pi_gt_d4; linarith)
  have hn3m : normalizeAngle (-3 : ℝ) = -3 :=
    normalizeAngle_eq_self (by have := pi_gt_d4; linarith) (by linarith)
  have hd63 : normalizeAngle (normalizeAngle 6 - normalizeAngle 3) = 3 := by
    rw [normalizeAngle_sub, show (6 : ℝ) - 3 = 3 by norm_num, hn3]
  have hd96 : normalizeAngle (normalizeAngle 9 - normalizeAngle 6) = 3 := by
    rw [normalizeAngle_sub, show (9 : ℝ) - 6 = 3 by norm_num, hn3]
  have hd69 : normalizeAngle (normalizeAngle 6 - normalizeAngle 9) = -3 := by
    rw [normalizeAngle_sub, show (6 : ℝ) - 9 = -3 by norm_num, hn3m]
  have hd36 : normalizeAngle (normalizeAngle 3 - normalizeAngle 6) = -3 := by
    rw [normalizeAngle_sub, show (3 : ℝ) - 6 = -3 by norm_num, hn3m]
  have hdead : ¬((91 : ℝ) < defaultParams.centerR * 0.05) := by
    have hc : defaultParams.centerR = 140 := rfl
    rw [hc]
    norm_num
  rw [runRA_fst, runRA_fst]
  simp only [c8moves, List.foldl_cons, List.foldl_nil]
  set A0 := (onBeginRA initState 0).1 with hA0def
  have hA0p : A0.prevAngle = 0 := rfl
  have hA0v : A0.angularVelocity = 0 := rfl
  have hA0t : A0.totalAngle = 0 := rfl
  have hA0d : A0.lastDirection = none := rfl
  have hA0lr : A0.lastRadius = 0 := rfl
  -- step 1
  have h2a : ¬(A0.lastRadius > 0 ∧
      |normalizeAngle (normalizeAngle 3 - A0.prevAngle)| < 0.05) := by
    rw [hA0lr]
    rintro ⟨h, -⟩
    exact lt_irrefl _ h
  obtain ⟨hp1, hlr1, -, -, hv1, hdir1, ht1, -, -⟩ :=
    onUpdateRA_core defaultParams A0 91 (normalizeAngle 3) hdead h2a
  set S1 := (onUpdateRA defaultParams A0 91 (normalizeAngle 3)).1 with hS1def
  have hv1' : S1.angularVelocity = 1.2 := by
    rw [hv1, hA0p, sub_zero, hn3, hn3, hA0v]
    norm_num
  have hdir1' : S1.lastDirection = some Direction.counterclockwise := by
    rw [hdir1, hA0p, sub_zero, hn3, hn3, hA0v,
      if_neg (by norm_num : ¬((0.4 : ℝ) * 3 + (1 - 0.4) * 0 < 0))]
  have ht1' : S1.totalAngle = 1.2 := by
    rw [ht1, hA0p, sub_zero, hn3, hn3, hA0v, hA0t, hA0d,
      if_neg (by norm_num : ¬((0.4 : ℝ) * 3 + (1 - 0.4) * 0 < 0)),
      if_neg (by simp : ¬((none : Option Direction) ≠ none ∧
        (none : Option Direction) ≠ some Direction.counterclockwise))]
    norm_num
  -- step 2
  have h2b : ¬(S1.lastRadius > 0 ∧
      |normalizeAngle (normalizeAngle 6 - S1.prevAngle)| < 0.05) := by
    rw [hp1, hd63]
    rintro ⟨-, habs⟩
    rw [abs_lt] at habs
    norm_num at habs
  obtain ⟨hp2, hlr2, -, -, hv2, hdir2, ht2, -, -⟩ :=
    onUpdateRA_core defaultParams S1 91 (normalizeAngle 6) hdead h2b
  set S2 := (onUpdateRA defaultParams S1 91 (normalizeAngle 6)).1 with hS2def
  have hv2' : S2.angularVelocity = 1.92 := by
    rw [hv2, hp1, hd63, hv1']
    norm_num
  have hdir2' : S2.lastDirection = some Direction.counterclockwise := by
    rw [hdir2, hp1, hd63, hv1',
      if_neg (by norm_num : ¬((0.4 : ℝ) * 3 + (1 - 0.4) * 1.2 < 0))]
  have ht2' : S2.totalAngle = 3.12 := by
    rw [ht2, hp1, hd63, hv1', ht1', hdir1',
      if_neg (by norm_num : ¬((0.4 : ℝ) * 3 + (1 - 0.4) * 1.2 < 0)),
      if_neg (by simp : ¬(some Direction.counterclockwise ≠ none ∧
        some Direction.counterclockwise ≠ some Direction.counterclockwise))]
    norm_num
  -- step 3
  have h2c : ¬(S2.lastRadius > 0 ∧
      |normalizeAngle (normalizeAngle 9 - S2.prevAngle)| < 0.05) := by
    rw [hp2, hd96]
    rintro ⟨-, habs⟩
    rw [abs_lt] at habs
    norm_num at habs
  obtain ⟨hp3, hlr3, -, -, hv3, hdir3, ht3, -, -⟩ :=
    onUpdateRA_core defaultParams S2 91 (normalizeAngle 9) hdead h2c
  set S3 := (onUpdateRA defaultParams S2 91 (normalizeAngle 9)).1 with hS3def
  have hv3' : S3.angularVelocity = 2.352 := by
    rw [hv3, hp2, hd96, hv2']
    norm_num
  have hdir3' : S3.lastDirection = some Direction.counterclockwise := by
    rw [hdir3, hp2, hd96, hv2',
      if_neg (by norm_num : ¬((0.4 : ℝ) * 3 + (1 - 0.4) * 1.92 < 0))]
  have ht3' : S3.totalAngle = 5.472 := by
    rw [ht3, hp2, hd96, hv2', ht2', hdir2',
      if_neg (by norm_num : ¬((0.4 : ℝ) * 3 + (1 - 0.4) * 1.92 < 0)),
      if_neg (by simp : ¬(some Direction.counterclockwise ≠ none ∧
        some Direction.counterclockwise ≠ some Direction.counterclockwise))]
    norm_num
  -- step 4
  have h2d : ¬(S3.lastRadius > 0 ∧
      |normalizeAngle (normalizeAngle 6 - S3.prevAngle)| < 0.05) := by
    rw [hp3, hd69]
    rintro ⟨-, habs⟩
    rw [abs_lt] at habs
    norm_num at habs
  obtain ⟨hp4, hlr4, -, -, hv4, hdir4, ht4, -, -⟩ :=
    onUpdateRA_core defaultParams S3 91 (normalizeAngle 6) hdead h2d
  set S4 := (onUpdateRA defaultParams S3 91 (normalizeAngle 6)).1 with hS4def
  have hv4' : S4.angularVelocity = 0.2112 := by
    rw [hv4, hp3, hd69, hv3']
    norm_num
  have hdir4' : S4.lastDirection = some Direction.counterclockwise := by
    rw [hdir4, hp3, hd69, hv3',
      if_neg (by norm_num : ¬((0.4 : ℝ) * (-3) + (1 - 0.4) * 2.352 < 0))]
  have ht4' : S4.totalAngle = 5.6832 := by
    rw [ht4, hp3, hd69, hv3', ht3', hdir3',
      if_neg (by norm_num : ¬((0.4 : ℝ) * (-3) + (1 - 0.4) * 2.352 < 0)),
      if_neg (by simp : ¬(some Direction.counterclockwise ≠ none ∧
        some Direction.counterclockwise ≠ some Direction.counterclockwise))]
    norm_num
  -- step 5: reversal
  have h2e : ¬(S4.lastRadius > 0 ∧
      |normalizeAngle (normalizeAngle 3 - S4.prevAngle)| < 0.05) := by
    rw [hp4, hd36]
    rintro ⟨-, habs⟩
    rw [abs_lt] at habs
    norm_num at habs
  obtain ⟨-, -, -, -, -, -, ht5, -, -⟩ :=
    onUpdateRA_core defaultParams S4 91 (normalizeAngle 3) hdead h2e
  set S5 := (onUpdateRA defaultParams S4 91 (normalizeAngle 3)).1 with hS5def
  have ht5' : S5.totalAngle = -1.07328 := by
    rw [ht5, hp4, hd36, hv4', ht4', hdir4',
      if_pos (by norm_num : ((0.4 : ℝ) * (-3) + (1 - 0.4) * 0.2112 < 0)),
      if_pos (⟨by simp, by simp⟩ : (some Direction.counterclockwise ≠ none ∧
        some Direction.counterclockwise ≠ some Direction.clockwise))]
    norm_num
  -- conclude
  rw [ht5', ht4']
  rw [abs_of_nonpos (by norm_num : (-1.07328 : ℝ) - 5.6832 ≤ 0)]
  linarith

/-- C8 (amended): at every update that does not trigger the direction
reversal, `totalAngle` changes by at most `π` in magnitude — the change is
the EMA-smoothed velocity, whose magnitude never exceeds `π` in a
reachable state; the reversal branch is the single exception. -/
theorem c8_no_reversal_change_le_pi (p : Params) (a0 : ℝ) (moves : List (ℝ × ℝ)) (r a : ℝ)
    (hnorev : (runRA p a0 moves).1.lastDirection = none ∨
      (runRA p a0 moves).1.lastDirection
        = some (if 0.4 * normalizeAngle (a - (runRA p a0 moves).1.prevAngle)
              + (1 - 0.4) * (runRA p a0 moves).1.angularVelocity < 0
            then Direction.clockwise else Direction.counterclockwise)) :
    |(onUpdateRA p (runRA p a0 moves).1 r a).1.totalAngle
      - (runRA p a0 moves).1.totalAngle| ≤ π := by
  have hv : |(runRA p a0 moves).1.angularVelocity| ≤ π := run_velocity_le_pi p a0 moves
  set st := (runRA p a0 moves).1 with hst
  by_cases h1 : r < p.centerR * 0.05
  · rw [onUpdateRA_dead p st r a h1]
    simpa using le_of_lt pi_pos
  by_cases h2 : st.lastRadius > 0 ∧ |normalizeAngle (a - st.prevAngle)| < 0.05
  · rw [onUpdateRA_micro p st r a h1 h2]
    simpa using le_of_lt pi_pos
  · obtain ⟨-, -, -, -, -, -, hta, -, -⟩ := onUpdateRA_core p st r a h1 h2
    have hb := ema_bound (normalizeAngle (a - st.prevAngle)) st.angularVelocity
      (abs_normalizeAngle_le _) hv
    have hcond : ¬(st.lastDirection ≠ none ∧
        st.lastDirection ≠ some (if 0.4 * normalizeAngle (a - st.prevAngle)
            + (1 - 0.4) * st.angularVelocity < 0
          then Direction.clockwise else Direction.counterclockwise)) := by
      rcases hnorev with h | h
      · intro hcc; exact hcc.1 h
      · intro hcc; exact hcc.2 h
    rw [hta, if_neg hcond]
    simpa using hb

/-- C8 witness: at the first sample of a fresh gesture (no recorded
direction) the accumulated angle moves by at most `π`. -/
theorem c8_no_reversal_change_le_pi_witness :
    |(onUpdateRA defaultParams (runRA defaultParams 0 []).1 91 0.1).1.totalAngle
      - (runRA defaultParams 0 []).1.totalAngle| ≤ π :=
  c8_no_reversal_change_le_pi defaultParams 0 [] 91 0.1 (Or.inl rfl)

-- ======================================================================
-- C6: micro-movement filtering
-- ======================================================================

/-- Once a positive `lastRadius` baseline exists, a chain of samples whose
wrap-corrected deltas all stay below the micro-movement threshold is fully
discarded: the event list does not grow. -/
theorem micro_chain_events (p : Params) :
    ∀ (ms : List (ℝ × ℝ)) (st : EngineState) (evs : List Event),
      st.lastRadius > 0 →
      smallChain st.prevAngle ms →
      (∀ m ∈ ms, ¬ (m.1 < p.centerR * 0.05)) →
      (∀ m ∈ ms, 0 < m.1) →
      (ms.foldl (stepFold p) (st, evs)).2 = evs := by
  intro ms
  induction ms with
  | nil => intro st evs _ _ _ _; rfl
  | cons m rest ih =>
    rintro st evs hlr hchain hdead hpos
    obtain ⟨r, a⟩ := m
    simp only [smallChain] at hchain
    have hd : ¬ (r < p.centerR * 0.05) := hdead _ (List.mem_cons_self _ _)
    have hmicro : st.lastRadius > 0 ∧ |normalizeAngle (a - st.prevAngle)| < 0.05 :=
      ⟨hlr, hchain.1⟩
    rw [List.foldl_cons]
    have hstep : stepFold p (st, evs) (r, a)
        = ({ st with lastRadius := r, prevAngle := a }, evs) := by
      simp only [stepFold, onUpdateRA_micro p st r a hd hmicro, List.append_nil]
    rw [hstep]
    apply ih
    · simpa using hpos _ (List.mem_cons_self _ _)
    · simpa using hchain.2
    · intro m hm; exact hdead m (List.mem_cons_of_mem _ hm)
    · intro m hm; exact hpos m (List.mem_cons_of_mem _ hm)

/-- C6 counterexample: a move sample whose wrap-corrected delta from the
initial angle is 0 (far below the 0.05 micro-movement threshold) still
produces one rotation-changed emission, because the micro-movement filter
is bypassed while `lastRadius` is still 0 at the first sample. -/
theorem c6_noise_counterexample :
    |normalizeAngle ((0 : ℝ) - 0)| < 0.05 ∧
    (runRA defaultParams 0 [((91 : ℝ), (0 : ℝ))]).2.countP isRC = 1 := by
  constructor
  · rw [sub_zero, normalizeAngle_zero]
    norm_num
  · simp only [runRA, List.foldl_cons, List.foldl_nil]
    have hd1 : ¬((91 : ℝ) < defaultParams.centerR * 0.05) := by
      have hc : defaultParams.centerR = 140 := rfl
      rw [hc]
      norm_num
    have hB : (onBeginRA initState (0 : ℝ)).1.lastRadius = 0 := rfl
    have h2 : ¬((onBeginRA initState (0 : ℝ)).1.lastRadius > 0 ∧
        |normalizeAngle (0 - (onBeginRA initState (0 : ℝ)).1.prevAngle)| < 0.05) := by
      rintro ⟨h, -⟩
      rw [hB] at h
      exact lt_irrefl _ h
    obtain ⟨hcnt, -, -⟩ := onUpdateRA_fire defaultParams (onBeginRA initState 0).1 91 0 hd1 h2
    have hsf : stepFold defaultParams (onBeginRA initState 0) (91, 0)
        = ((onUpdateRA defaultParams (onBeginRA initState 0).1 91 0).1,
           [Event.gestureStart] ++ (onUpdateRA defaultParams (onBeginRA initState 0).1 91 0).2) :=
      rfl
    rw [hsf]
    simp only [List.countP_append, hcnt]
    simp [List.countP, List.countP.go, isRC]

/-- C6 (amended): a gesture whose move samples all stay outside the dead
zone and within the micro-movement threshold of each other emits exactly
one rotation-changed — for the first move sample, which bypasses the
filter because no `lastRadius` baseline exists yet; every later sample is
discarded by the filter. -/
theorem c6_noise_amended (p : Params) (a0 r1 a1 : ℝ) (rest : List (ℝ × ℝ))
    (hR : 0 < p.centerR)
    (hdeadAll : ∀ m ∈ ((r1, a1) :: rest : List (ℝ × ℝ)), ¬ (m.1 < p.centerR * 0.05))
    (hchain : smallChain a0 ((r1, a1) :: rest)) :
    (runRA p a0 ((r1, a1) :: rest)).2.countP isRC = 1 := by
  have h5 : 0 < p.centerR * 0.05 := by positivity
  have hpos : ∀ m ∈ ((r1, a1) :: rest : List (ℝ × ℝ)), 0 < m.1 := by
    intro m hm
    have := not_lt.1 (hdeadAll m hm)
    linarith
  simp only [smallChain] at hchain
  simp only [runRA, List.foldl_cons]
  have hd1 : ¬ ((r1 : ℝ) < p.centerR * 0.05) := hdeadAll _ (List.mem_cons_self _ _)
  have hB : (onBeginRA initState a0).1.lastRadius = 0 := rfl
  have h2 : ¬((onBeginRA initState a0).1.lastRadius > 0 ∧
      |normalizeAngle (a1 - (onBeginRA initState a0).1.prevAngle)| < 0.05) := by
    rintro ⟨h, -⟩
    rw [hB] at h
    exact lt_irrefl _ h
  obtain ⟨hcnt, -, -⟩ := onUpdateRA_fire p (onBeginRA initState a0).1 r1 a1 hd1 h2
  obtain ⟨hp1, hlr1, -, -, -, -, -, -, -⟩ := onUpdateRA_core p (onBeginRA initState a0).1 r1 a1 hd1 h2
  have hsf : stepFold p (onBeginRA initState a0) (r1, a1)
      = ((onUpdateRA p (onBeginRA initState a0).1 r1 a1).1,
         [Event.gestureStart] ++ (onUpdateRA p (onBeginRA initState a0).1 r1 a1).2) := rfl
  rw [hsf]
  rw [micro_chain_events p rest _ _ ?_ ?_ ?_ ?_]
  · simp only [List.countP_append, hcnt]
    simp [List.countP, List.countP.go, isRC]
  · rw [hlr1]
    exact hpos _ (List.mem_cons_self _ _)
  · rw [hp1]
    exact hchain.2
  · intro m hm; exact hdeadAll m (List.mem_cons_of_mem _ hm)
  · intro m hm; exact hpos m (List.mem_cons_of_mem _ hm)

/-- C6 witness: three nearly-stationary samples at radius 91 (deltas 0,
0.01 and 0.01 radians) produce exactly one rotation-changed emission. -/
theorem c6_noise_amended_witness :
    (runRA defaultParams 0 [((91 : ℝ), (0 : ℝ)), (91, 0.01), (91, 0.02)]).2.countP isRC = 1 := by
  have hc : defaultParams.centerR = 140 := rfl
  have hsmall : ∀ x : ℝ, 0 ≤ x → x < 0.05 → |normalizeAngle x| < 0.05 := by
    intro x h0 h5
    have hpi := pi_gt_three
    rw [normalizeAngle_eq_self (by linarith) (by linarith)]
    rw [abs_of_nonneg h0]
    exact h5
  refine c6_noise_amended defaultParams 0 91 0 [(91, 0.01), (91, 0.02)] ?_ ?_ ?_
  · rw [hc]
    norm_num
  · intro m hm
    simp only [List.mem_cons, List.not_mem_nil, or_false] at hm
    rcases hm with h | h | h <;> (subst h; rw [hc]; norm_num)
  · refine ⟨?_, ?_, ?_, trivial⟩
    · rw [sub_zero]
      exact hsmall 0 le_rfl (by norm_num)
    · rw [sub_zero]
      exact hsmall 0.01 (by norm_num) (by norm_num)
    · rw [show (0.02 : ℝ) - 0.01 = 0.01 by norm_num]
      exact hsmall 0.01 (by norm_num) (by norm_num)

-- ======================================================================
-- Constant-delta circular runs (shared by the band and turn-count claims)
-- ======================================================================

theorem normalizeAngle_idem (x : ℝ) : normalizeAngle (normalizeAngle x) = normalizeAngle x :=
  normalizeAngle_eq_self (normalizeAngle_mem x).1 (normalizeAngle_mem x).2

theorem constMoves_succ (rho d : ℝ) (N : ℕ) :
    constMoves rho d (N + 1)
      = constMoves rho d N ++ [(rho, normalizeAngle (((N : ℝ) + 1) * d))] := by
  simp [constMoves, List.range_succ]

theorem runRA_fst_append (p : Params) (a0 : ℝ) (ms : List (ℝ × ℝ)) (m : ℝ × ℝ) :
    (runRA p a0 (ms ++ [m])).1 = (onUpdateRA p (runRA p a0 ms).1 m.1 m.2).1 := by
  rw [runRA_fst, runRA_fst, List.foldl_append]
  simp only [List.foldl_cons, List.foldl_nil]

/-- One constant-delta sample applied to a state in constant-run form. -/
theorem const_step (p : Params) (rho d : ℝ) (st : EngineState) (k : ℕ)
    (hdead : ¬ (rho < p.centerR * 0.05))
    (hd05 : 0.05 ≤ d) (hdpi : d < π)
    (hprev : st.prevAngle = normalizeAngle ((k : ℝ) * d))
    (hvel : st.angularVelocity = d * (1 - (0.6 : ℝ) ^ k))
    (hta : st.totalAngle = d * u k)
    (hdir : st.lastDirection = none ∨ st.lastDirection = some Direction.counterclockwise) :
    (onUpdateRA p st rho (normalizeAngle (((k : ℝ) + 1) * d))).1.prevAngle
        = normalizeAngle (((k : ℝ) + 1) * d) ∧
    (onUpdateRA p st rho (normalizeAngle (((k : ℝ) + 1) * d))).1.lastRadius = rho ∧
    (onUpdateRA p st rho (normalizeAngle (((k : ℝ) + 1) * d))).1.isInsideBand = true ∧
    (onUpdateRA p st rho (normalizeAngle (((k : ℝ) + 1) * d))).1.samples = st.samples + 1 ∧
    (onUpdateRA p st rho (normalizeAngle (((k : ℝ) + 1) * d))).1.radiusMean
        = st.radiusMean + (rho - st.radiusMean) / ((st.samples : ℝ) + 1) ∧
    (onUpdateRA p st rho (normalizeAngle (((k : ℝ) + 1) * d))).1.radiusM2
        = st.radiusM2 + (rho - st.radiusMean)
            * (rho - (st.radiusMean + (rho - st.radiusMean) / ((st.samples : ℝ) + 1))) ∧
    (onUpdateRA p st rho (normalizeAngle (((k : ℝ) + 1) * d))).1.angularVelocity
        = d * (1 - (0.6 : ℝ) ^ (k + 1)) ∧
    (onUpdateRA p st rho (normalizeAngle (((k : ℝ) + 1) * d))).1.lastDirection
        = some Direction.counterclockwise ∧
    (onUpdateRA p st rho (normalizeAngle (((k : ℝ) + 1) * d))).1.totalAngle
        = d * u (k + 1) := by
  have hdpos : (0 : ℝ) < d := lt_of_lt_of_le (by norm_num) hd05
  have hdelta : normalizeAngle (normalizeAngle (((k : ℝ) + 1) * d) - st.prevAngle) = d := by
    rw [hprev, normalizeAngle_sub, show ((k : ℝ) + 1) * d - (k : ℝ) * d = d by ring]
    exact normalizeAngle_eq_self (by linarith [pi_pos]) hdpi
  have h2 : ¬(st.lastRadius > 0 ∧
      |normalizeAngle (normalizeAngle (((k : ℝ) + 1) * d) - st.prevAngle)| < 0.05) := by
    rintro ⟨-, habs⟩
    rw [hdelta, abs_of_pos hdpos] at habs
    linarith
  obtain ⟨hp, hlr, hband, hsam, hv, hdirn, htan, hmean, hm2⟩ :=
    onUpdateRA_core p st rho (normalizeAngle (((k : ℝ) + 1) * d)) hdead h2
  have h06 : (0.6 : ℝ) ^ (k + 1) < 1 :=
    pow_lt_one (by norm_num) (by norm_num) (Nat.succ_ne_zero k)
  have hvval : 0.4 * d + (1 - 0.4) * st.angularVelocity = d * (1 - (0.6 : ℝ) ^ (k + 1)) := by
    rw [hvel, pow_succ]
    ring
  have hvpos : 0 < d * (1 - (0.6 : ℝ) ^ (k + 1)) := mul_pos hdpos (by linarith)
  have hnneg : ¬(0.4 * d + (1 - 0.4) * st.angularVelocity < 0) := by
    rw [hvval]
    exact not_lt.2 (le_of_lt hvpos)
  refine ⟨hp, hlr, hband, hsam, hmean, hm2, ?_, ?_, ?_⟩
  · rw [hv, hdelta, hvval]
  · rw [hdirn, hdelta, if_neg hnneg]
  · rw [htan, hdelta]
    have hcond : ¬(st.lastDirection ≠ none ∧
        st.lastDirection ≠ some (if 0.4 * d + (1 - 0.4) * st.angularVelocity < 0
          then Direction.clockwise else Direction.counterclockwise)) := by
      rw [if_neg hnneg]
      rcases hdir with h | h
      · rintro ⟨hc, -⟩; exact hc h
      · rintro ⟨-, hc⟩; exact hc h
    rw [if_neg hcond, hta, hvval]
    simp only [u]
    push_cast
    simp only [pow_succ]
    ring

/-- Closed form of the state after `N + 1` constant-delta samples. -/
theorem constRun_state (p : Params) (rho d : ℝ)
    (hdead : ¬ (rho < p.centerR * 0.05))
    (hd05 : 0.05 ≤ d) (hdpi : d < π) :
    ∀ N : ℕ,
      (runRA p 0 (constMoves rho d (N + 1))).1.prevAngle
          = normalizeAngle (((N : ℝ) + 1) * d) ∧
      (runRA p 0 (constMoves rho d (N + 1))).1.lastRadius = rho ∧
      (runRA p 0 (constMoves rho d (N + 1))).1.samples = N + 1 ∧
      (runRA p 0 (constMoves rho d (N + 1))).1.radiusMean = rho ∧
      (runRA p 0 (constMoves rho d (N + 1))).1.radiusM2 = 0 ∧
      (runRA p 0 (constMoves rho d (N + 1))).1.isInsideBand = true ∧
      (runRA p 0 (constMoves rho d (N + 1))).1.lastDirection
          = some Direction.counterclockwise ∧
      (runRA p 0 (constMoves rho d (N + 1))).1.angularVelocity
          = d * (1 - (0.6 : ℝ) ^ (N + 1)) ∧
      (runRA p 0 (constMoves rho d (N + 1))).1.totalAngle = d * u (N + 1) := by
  intro N
  induction N with
  | zero =>
    rw [constMoves_succ]
    have hbase : constMoves rho d 0 = [] := rfl
    rw [show (runRA p 0 (constMoves rho d 0
          ++ [(rho, normalizeAngle (((((0 : ℕ) : ℝ)) + 1) * d))])).1
        = (onUpdateRA p (runRA p 0 (constMoves rho d 0)).1 rho
            (normalizeAngle (((((0 : ℕ) : ℝ)) + 1) * d))).1
      from runRA_fst_append p 0 (constMoves rho d 0) _]
    have hprev0 : (runRA p 0 (constMoves rho d 0)).1.prevAngle
        = normalizeAngle (((0 : ℕ) : ℝ) * d) := by
      have h1 : (runRA p 0 (constMoves rho d 0)).1.prevAngle = 0 := rfl
      rw [h1, show ((0 : ℕ) : ℝ) * d = 0 by push_cast; ring, normalizeAngle_zero]
    have hvel0 : (runRA p 0 (constMoves rho d 0)).1.angularVelocity
        = d * (1 - (0.6 : ℝ) ^ (0 : ℕ)) := by
      have h1 : (runRA p 0 (constMoves rho d 0)).1.angularVelocity = 0 := rfl
      rw [h1, pow_zero]
      ring
    have hta0 : (runRA p 0 (constMoves rho d 0)).1.totalAngle = d * u 0 := by
      have h1 : (runRA p 0 (constMoves rho d 0)).1.totalAngle = 0 := rfl
      have h2 : u 0 = 0 := by simp [u]
      rw [h1, h2]
      ring
    have hdir0 : (runRA p 0 (constMoves rho d 0)).1.lastDirection = none := rfl
    obtain ⟨cp, clr, cband, csam, cmean, cm2, cvel, cdir, cta⟩ :=
      const_step p rho d (runRA p 0 (constMoves rho d 0)).1 0 hdead hd05 hdpi
        hprev0 hvel0 hta0 (Or.inl hdir0)
    have hsam0 : (runRA p 0 (constMoves rho d 0)).1.samples = 0 := rfl
    have hmean0 : (runRA p 0 (constMoves rho d 0)).1.radiusMean = 0 := rfl
    have hM20 : (runRA p 0 (constMoves rho d 0)).1.radiusM2 = 0 := rfl
    refine ⟨cp, clr, ?_, ?_, ?_, cband, cdir, cvel, cta⟩
    · rw [csam, hsam0]
    · rw [cmean, hmean0, hsam0]
      push_cast
      field_simp
    · rw [cm2, hM20, hmean0, hsam0]
      push_cast
      field_simp
  | succ n ih =>
    rw [constMoves_succ]
    rw [show (runRA p 0 (constMoves rho d (n + 1)
          ++ [(rho, normalizeAngle (((((n + 1 : ℕ) : ℝ)) + 1) * d))])).1
        = (onUpdateRA p (runRA p 0 (constMoves rho d (n + 1))).1 rho
            (normalizeAngle (((((n + 1 : ℕ) : ℝ)) + 1) * d))).1
      from runRA_fst_append p 0 (constMoves rho d (n + 1)) _]
    obtain ⟨ihp, ihlr, ihsam, ihmean, ihm2, ihband, ihdir, ihvel, ihta⟩ := ih
    obtain ⟨cp, clr, cband, csam, cmean, cm2, cvel, cdir, cta⟩ :=
      const_step p rho d (runRA p 0 (constMoves rho d (n + 1))).1 (n + 1) hdead hd05 hdpi
        (by rw [Nat.cast_succ]; exact ihp) ihvel ihta (Or.inr ihdir)
    refine ⟨cp, clr, ?_, ?_, ?_, cband, cdir, cvel, cta⟩
    · rw [csam, ihsam]
    · rw [cmean, ihmean]
      simp
    · rw [cm2, ihm2, ihmean]
      simp

-- ======================================================================
-- C1: band rejection is disabled in the code
-- ======================================================================

/-- C1: a gesture at constant radius 28 — strictly below the inner band
bound `140 · 0.45 = 63` at every sample — still gets a
full-circle-completed from `end()` after 16 samples of `π/4` (four raw
radians per second of arc, two full revolutions): the band flag is set
unconditionally because the band check is commented out in the source, so
band rejection never happens. -/
theorem c1_band_rejection_violated :
    (∀ m ∈ constMoves 28 (π / 4) 16,
      m.1 < defaultParams.centerR * defaultParams.minRadiusRatio) ∧
    (∃ t dir, Event.fullCircleCompleted t dir
      ∈ (onEndRA defaultParams (runRA defaultParams 0 (constMoves 28 (π / 4) 16)).1).2) := by
  have hc : defaultParams.centerR = 140 := rfl
  constructor
  · intro m hm
    simp only [constMoves, List.mem_map] at hm
    obtain ⟨k, -, rfl⟩ := hm
    have hmr : defaultParams.minRadiusRatio = 0.45 := rfl
    rw [hc, hmr]
    norm_num
  · have h16 : constMoves (28 : ℝ) (π / 4) 16 = constMoves 28 (π / 4) (15 + 1) := rfl
    rw [h16]
    have hdead : ¬((28 : ℝ) < defaultParams.centerR * 0.05) := by
      rw [hc]
      norm_num
    have hd05 : (0.05 : ℝ) ≤ π / 4 := by have := pi_gt_three; linarith
    have hdpi : π / 4 < π := by have := pi_pos; linarith
    obtain ⟨-, -, hsam, -, hM2, hband, -, -, hta⟩ :=
      constRun_state defaultParams 28 (π / 4) hdead hd05 hdpi 15
    have hu : (14.5 : ℝ) ≤ u (15 + 1) := by
      simp only [u]
      push_cast
      norm_num
    have hturns : (runRA defaultParams 0 (constMoves 28 (π / 4) (15 + 1))).1.totalAngle / (2 * π)
        = u (15 + 1) / 8 := by
      rw [hta]
      field_simp
      ring
    have hokTurns : |(runRA defaultParams 0 (constMoves 28 (π / 4) (15 + 1))).1.totalAngle / (2 * π)|
        ≥ defaultParams.turnThreshold := by
      rw [hturns]
      have htt : defaultParams.turnThreshold = 1 := rfl
      rw [htt, abs_of_nonneg (by linarith : (0 : ℝ) ≤ u (15 + 1) / 8)]
      linarith
    have hvar : (if (runRA defaultParams 0 (constMoves 28 (π / 4) (15 + 1))).1.samples > 1
        then (runRA defaultParams 0 (constMoves 28 (π / 4) (15 + 1))).1.radiusM2
          / (((runRA defaultParams 0 (constMoves 28 (π / 4) (15 + 1))).1.samples : ℝ) - 1)
        else 0) ≤ (defaultParams.centerR * 0.15) ^ 2 := by
      rw [hsam, hM2, if_pos (by norm_num : 15 + 1 > 1), hc]
      norm_num
    refine ⟨(runRA defaultParams 0 (constMoves 28 (π / 4) (15 + 1))).1.totalAngle / (2 * π),
      (if (runRA defaultParams 0 (constMoves 28 (π / 4) (15 + 1))).1.totalAngle / (2 * π) < 0
       then Direction.clockwise else Direction.counterclockwise), ?_⟩
    simp only [onEndRA]
    rw [if_pos ⟨hband, hokTurns, hvar⟩, List.singleton_append]
    exact List.mem_cons_self _ _

-- ======================================================================
-- C4: floor bookkeeping for the pi/32 run
-- ======================================================================

theorem runRA_append (p : Params) (a0 : ℝ) (ms : List (ℝ × ℝ)) (m : ℝ × ℝ) :
    runRA p a0 (ms ++ [m]) = stepFold p (runRA p a0 ms) m := by
  simp only [runRA, List.foldl_append, List.foldl_cons, List.foldl_nil]

theorem u_pos (k : ℕ) (hk : 2 ≤ k) : 0 < u k := by
  have h1 : (0 : ℝ) ≤ (0.6 : ℝ) ^ k := by positivity
  have hk2 : (2 : ℝ) ≤ (k : ℝ) := by exact_mod_cast hk
  simp only [u]
  nlinarith

/-- The floor of the discounted turn count `u k / 64` is `(k - 2) / 64`:
the EMA lag keeps `u k` strictly between `k - 1.5` and `k - 1`. -/
theorem floor_u64 : ∀ (k : ℕ), 1 ≤ k → ⌊u k / 64⌋ = (((k - 2) / 64 : ℕ) : ℤ)
  | 0, h => by omega
  | 1, _ => by
    have hu1 : u 1 = 0.4 := by
      simp only [u]
      norm_num
    have hr : ((((1 : ℕ) - 2) / 64 : ℕ) : ℤ) = 0 := by norm_num
    rw [hu1, hr, Int.floor_eq_zero_iff, Set.mem_Ico]
    norm_num
  | 2, _ => by
    have hu2 : u 2 = 1.04 := by
      simp only [u]
      norm_num
    have hr : ((((2 : ℕ) - 2) / 64 : ℕ) : ℤ) = 0 := by norm_num
    rw [hu2, hr, Int.floor_eq_zero_iff, Set.mem_Ico]
    norm_num
  | (n + 3), _ => by
    have hx1 : (0 : ℝ) < (0.6 : ℝ) ^ (n + 3) := by positivity
    have hx2 : (0.6 : ℝ) ^ (n + 3) ≤ (0.6 : ℝ) ^ 3 :=
      pow_le_pow_of_le_one (by norm_num) (by norm_num) (by omega)
    have huval : u (n + 3) = ((n : ℝ) + 3) - 1.5 * (1 - (0.6 : ℝ) ^ (n + 3)) := by
      simp only [u]
      push_cast
      ring
    have hlow : ((n : ℝ) + 1.5) < u (n + 3) := by nlinarith
    have hhigh : u (n + 3) < ((n : ℝ) + 2) := by nlinarith
    set q : ℕ := (n + 3 - 2) / 64 with hqdef
    have hq1 : 64 * q ≤ n + 1 := by omega
    have hq2 : n + 1 ≤ 64 * q + 63 := by omega
    have hq1R : (64 : ℝ) * (q : ℝ) ≤ (n : ℝ) + 1 := by exact_mod_cast hq1
    have hq2R : (n : ℝ) + 1 ≤ 64 * (q : ℝ) + 63 := by exact_mod_cast hq2
    rw [Int.floor_eq_iff]
    constructor
    · rw [le_div_iff (by norm_num : (0 : ℝ) < 64)]
      push_cast
      linarith
    · rw [div_lt_iff (by norm_num : (0 : ℝ) < 64)]
      push_cast
      linarith

/-- Turn count of the `π/32` run in rational form. -/
theorem pi32_turns (x : ℝ) : π / 32 * x / (2 * π) = x / 64 := by
  have hpi : π ≠ 0 := pi_ne_zero
  field_simp
  ring

/-- The emissions and bookkeeping of one constant-delta sample, with the
turn count in closed form and the direction resolved. -/
theorem const_step_fire (p : Params) (rho d : ℝ) (st : EngineState) (k : ℕ)
    (hdead : ¬ (rho < p.centerR * 0.05))
    (hd05 : 0.05 ≤ d) (hdpi : d < π)
    (hprev : st.prevAngle = normalizeAngle ((k : ℝ) * d))
    (hvel : st.angularVelocity = d * (1 - (0.6 : ℝ) ^ k))
    (hta : st.totalAngle = d * u k)
    (hdir : st.lastDirection = none ∨ st.lastDirection = some Direction.counterclockwise) :
    ((onUpdateRA p st rho (normalizeAngle (((k : ℝ) + 1) * d))).2.filter isFC
      = (if jsFloor |d * u (k + 1) / (2 * π)| > jsFloor |st.lastReportedTurn| ∧
            jsFloor |d * u (k + 1) / (2 * π)| ≥ p.turnThreshold
         then [Event.fullCircleCompleted (d * u (k + 1) / (2 * π)) Direction.counterclockwise]
         else [])) ∧
    ((onUpdateRA p st rho (normalizeAngle (((k : ℝ) + 1) * d))).1.lastReportedTurn
      = (if jsFloor |d * u (k + 1) / (2 * π)| > jsFloor |st.lastReportedTurn| ∧
            jsFloor |d * u (k + 1) / (2 * π)| ≥ p.turnThreshold
         then d * u (k + 1) / (2 * π) else st.lastReportedTurn)) := by
  have hdpos : (0 : ℝ) < d := lt_of_lt_of_le (by norm_num) hd05
  have hdelta : normalizeAngle (normalizeAngle (((k : ℝ) + 1) * d) - st.prevAngle) = d := by
    rw [hprev, normalizeAngle_sub, show ((k : ℝ) + 1) * d - (k : ℝ) * d = d by ring]
    exact normalizeAngle_eq_self (by linarith [pi_pos]) hdpi
  have h2 : ¬(st.lastRadius > 0 ∧
      |normalizeAngle (normalizeAngle (((k : ℝ) + 1) * d) - st.prevAngle)| < 0.05) := by
    rintro ⟨-, habs⟩
    rw [hdelta, abs_of_pos hdpos] at habs
    linarith
  obtain ⟨-, -, -, -, -, -, -, -, cta⟩ :=
    const_step p rho d st k hdead hd05 hdpi hprev hvel hta hdir
  have h06 : (0.6 : ℝ) ^ (k + 1) < 1 :=
    pow_lt_one (by norm_num) (by norm_num) (Nat.succ_ne_zero k)
  have hvval : 0.4 * d + (1 - 0.4) * st.angularVelocity = d * (1 - (0.6 : ℝ) ^ (k + 1)) := by
    rw [hvel, pow_succ]
    ring
  have hvpos : 0 < d * (1 - (0.6 : ℝ) ^ (k + 1)) := mul_pos hdpos (by linarith)
  have hnneg : ¬(0.4 * d + (1 - 0.4) * st.angularVelocity < 0) := by
    rw [hvval]
    exact not_lt.2 (le_of_lt hvpos)
  obtain ⟨-, hfil, hlrt⟩ := onUpdateRA_fire p st rho (normalizeAngle (((k : ℝ) + 1) * d)) hdead h2
  rw [cta] at hfil hlrt
  rw [hdelta, if_neg hnneg] at hfil
  exact ⟨hfil, hlrt⟩

theorem jsFloor_abs_zero : jsFloor |(0 : ℝ)| = 0 := by
  simp [jsFloor]

theorem jsFloor_u_div (k : ℕ) (hk : 2 ≤ k) :
    jsFloor |u k / 64| = (((k - 2) / 64 : ℕ) : ℝ) := by
  rw [abs_of_nonneg (div_nonneg (le_of_lt (u_pos k hk)) (by norm_num))]
  simp only [jsFloor]
  rw [floor_u64 k (by omega)]
  norm_cast

theorem jsFloor_pi32 (k : ℕ) (hk : 2 ≤ k) :
    jsFloor |π / 32 * u k / (2 * π)| = (((k - 2) / 64 : ℕ) : ℝ) := by
  rw [pi32_turns]
  exact jsFloor_u_div k hk

theorem jsFloor_u66 : jsFloor |u 66 / 64| = 1 := by
  rw [jsFloor_u_div 66 (by norm_num)]
  norm_num

theorem jsFloor_u130 : jsFloor |u 130 / 64| = 2 := by
  rw [jsFloor_u_div 130 (by norm_num)]
  norm_num

/-- Turn bookkeeping and full-circle emissions of the `π/32` run: the first
full-circle-completed fires at sample 66 and the second at sample 130
(the EMA lag delays each threshold crossing by about 1.5 samples). -/
theorem c4_invariant : ∀ n : ℕ, n + 1 ≤ 192 →
    ((runRA defaultParams 0 (constMoves 91 (π / 32) (n + 1))).1.lastReportedTurn
      = (if n + 1 ≤ 65 then 0 else if n + 1 ≤ 129 then u 66 / 64 else u 130 / 64)) ∧
    ((runRA defaultParams 0 (constMoves 91 (π / 32) (n + 1))).2.filter isFC
      = (if n + 1 ≤ 65 then ([] : List Event)
         else if n + 1 ≤ 129 then
           [Event.fullCircleCompleted (u 66 / 64) Direction.counterclockwise]
         else [Event.fullCircleCompleted (u 66 / 64) Direction.counterclockwise,
               Event.fullCircleCompleted (u 130 / 64) Direction.counterclockwise])) := by
  have hdead : ¬((91 : ℝ) < defaultParams.centerR * 0.05) := by
    rw [show defaultParams.centerR = 140 from rfl]
    norm_num
  have hpi3 := pi_gt_three
  have hpi0 := pi_pos
  have hd05 : (0.05 : ℝ) ≤ π / 32 := by linarith
  have hdpi : π / 32 < π := by linarith
  have htt : defaultParams.turnThreshold = 1 := rfl
  intro n
  induction n with
  | zero =>
    intro _
    rw [constMoves_succ, runRA_append]
    have hprev0 : (runRA defaultParams 0 (constMoves 91 (π / 32) 0)).1.prevAngle
        = normalizeAngle (((0 : ℕ) : ℝ) * (π / 32)) := by
      have h1 : (runRA defaultParams 0 (constMoves 91 (π / 32) 0)).1.prevAngle = 0 := rfl
      rw [h1, show ((0 : ℕ) : ℝ) * (π / 32) = 0 by push_cast; ring, normalizeAngle_zero]
    have hvel0 : (runRA defaultParams 0 (constMoves 91 (π / 32) 0)).1.angularVelocity
        = (π / 32) * (1 - (0.6 : ℝ) ^ (0 : ℕ)) := by
      have h1 : (runRA defaultParams 0 (constMoves 91 (π / 32) 0)).1.angularVelocity = 0 := rfl
      rw [h1, pow_zero]
      ring
    have hta0 : (runRA defaultParams 0 (constMoves 91 (π / 32) 0)).1.totalAngle
        = (π / 32) * u 0 := by
      have h1 : (runRA defaultParams 0 (constMoves 91 (π / 32) 0)).1.totalAngle = 0 := rfl
      have h2 : u 0 = 0 := by simp [u]
      rw [h1, h2]
      ring
    have hdir0 : (runRA defaultParams 0 (constMoves 91 (π / 32) 0)).1.lastDirection = none := rfl
    obtain ⟨hfil, hlrt⟩ := const_step_fire defaultParams 91 (π / 32)
      (runRA defaultParams 0 (constMoves 91 (π / 32) 0)).1 0 hdead hd05 hdpi
      hprev0 hvel0 hta0 (Or.inl hdir0)
    have hlrt0 : (runRA defaultParams 0 (constMoves 91 (π / 32) 0)).1.lastReportedTurn = 0 := rfl
    have hu1nn : (0 : ℝ) ≤ u (0 + 1) / 64 := by
      simp only [u]
      norm_num
    have hcur : jsFloor |π / 32 * u (0 + 1) / (2 * π)| = 0 := by
      rw [pi32_turns, abs_of_nonneg hu1nn]
      simp only [jsFloor]
      rw [floor_u64 1 (by norm_num)]
      norm_num
    have hcond : ¬(jsFloor |π / 32 * u (0 + 1) / (2 * π)|
          > jsFloor |(runRA defaultParams 0 (constMoves 91 (π / 32) 0)).1.lastReportedTurn| ∧
        jsFloor |π / 32 * u (0 + 1) / (2 * π)| ≥ defaultParams.turnThreshold) := by
      rw [hcur, hlrt0, jsFloor_abs_zero]
      rintro ⟨hgt, -⟩
      exact lt_irrefl _ hgt
    constructor
    · rw [show (stepFold defaultParams (runRA defaultParams 0 (constMoves 91 (π / 32) 0))
          ((91 : ℝ), normalizeAngle ((((0 : ℕ) : ℝ) + 1) * (π / 32)))).1
          = (onUpdateRA defaultParams (runRA defaultParams 0 (constMoves 91 (π / 32) 0)).1
              91 (normalizeAngle ((((0 : ℕ) : ℝ) + 1) * (π / 32)))).1 from rfl]
      rw [hlrt, if_neg hcond, hlrt0, if_pos (by norm_num : 0 + 1 ≤ 65)]
    · rw [show (stepFold defaultParams (runRA defaultParams 0 (constMoves 91 (π / 32) 0))
          ((91 : ℝ), normalizeAngle ((((0 : ℕ) : ℝ) + 1) * (π / 32)))).2
          = (runRA defaultParams 0 (constMoves 91 (π / 32) 0)).2
            ++ (onUpdateRA defaultParams (runRA defaultParams 0 (constMoves 91 (π / 32) 0)).1
                91 (normalizeAngle ((((0 : ℕ) : ℝ) + 1) * (π / 32)))).2 from rfl]
      rw [List.filter_append, hfil, if_neg hcond,
        show (runRA defaultParams 0 (constMoves 91 (π / 32) 0)).2 = [Event.gestureStart]
          from rfl,
        if_pos (by norm_num : 0 + 1 ≤ 65)]
      simp [isFC]
  | succ m ihm =>
    intro hle
    obtain ⟨ihlrt, ihfc⟩ := ihm (by omega)
    obtain ⟨sp, slr, ssam, smean, sm2, sband, sdir, svel, sta⟩ :=
      constRun_state defaultParams 91 (π / 32) hdead hd05 hdpi m
    rw [constMoves_succ, runRA_append]
    obtain ⟨hfil, hlrt⟩ := const_step_fire defaultParams 91 (π / 32)
      (runRA defaultParams 0 (constMoves 91 (π / 32) (m + 1))).1 (m + 1) hdead hd05 hdpi
      (by rw [Nat.cast_succ]; exact sp) svel sta (Or.inr sdir)
    have hsf1 : (stepFold defaultParams (runRA defaultParams 0 (constMoves 91 (π / 32) (m + 1)))
        ((91 : ℝ), normalizeAngle ((((m + 1 : ℕ) : ℝ) + 1) * (π / 32)))).1
        = (onUpdateRA defaultParams (runRA defaultParams 0 (constMoves 91 (π / 32) (m + 1))).1
            91 (normalizeAngle ((((m + 1 : ℕ) : ℝ) + 1) * (π / 32)))).1 := rfl
    have hsf2 : (stepFold defaultParams (runRA defaultParams 0 (constMoves 91 (π / 32) (m + 1)))
        ((91 : ℝ), normalizeAngle ((((m + 1 : ℕ) : ℝ) + 1) * (π / 32)))).2
        = (runRA defaultParams 0 (constMoves 91 (π / 32) (m + 1))).2
          ++ (onUpdateRA defaultParams (runRA defaultParams 0 (constMoves 91 (π / 32) (m + 1))).1
              91 (normalizeAngle ((((m + 1 : ℕ) : ℝ) + 1) * (π / 32)))).2 := rfl
    have hidx : (m + 1 + 1 - 2 : ℕ) = m := by omega
    have hcur : jsFloor |π / 32 * u (m + 1 + 1) / (2 * π)| = ((m / 64 : ℕ) : ℝ) := by
      rw [jsFloor_pi32 (m + 1 + 1) (by omega), hidx]
    by_cases hA : m + 2 ≤ 65
    · have hm64 : (m / 64 : ℕ) = 0 := by omega
      rw [hm64] at hcur
      have hlast : (runRA defaultParams 0 (constMoves 91 (π / 32) (m + 1))).1.lastReportedTurn
          = 0 := by
        rw [ihlrt, if_pos (by omega : m + 1 ≤ 65)]
      have hcond : ¬(jsFloor |π / 32 * u (m + 1 + 1) / (2 * π)|
            > jsFloor |(runRA defaultParams 0
                (constMoves 91 (π / 32) (m + 1))).1.lastReportedTurn| ∧
          jsFloor |π / 32 * u (m + 1 + 1) / (2 * π)| ≥ defaultParams.turnThreshold) := by
        rw [hcur, hlast, jsFloor_abs_zero]
        rintro ⟨hgt, -⟩
        norm_num at hgt
      constructor
      · rw [hsf1, hlrt, if_neg hcond, hlast, if_pos (by omega : m + 1 + 1 ≤ 65)]
      · rw [hsf2, List.filter_append, hfil, if_neg hcond, ihfc,
          if_pos (by omega : m + 1 ≤ 65), if_pos (by omega : m + 1 + 1 ≤ 65), List.append_nil]
    · by_cases hB : m + 2 = 66
      · have hm : m = 64 := by omega
        subst hm
        have hlast : (runRA defaultParams 0 (constMoves 91 (π / 32) (64 + 1))).1.lastReportedTurn
            = 0 := by
          rw [ihlrt, if_pos (by norm_num : 64 + 1 ≤ 65)]
        have hcond : (jsFloor |π / 32 * u (64 + 1 + 1) / (2 * π)|
              > jsFloor |(runRA defaultParams 0
                  (constMoves 91 (π / 32) (64 + 1))).1.lastReportedTurn| ∧
            jsFloor |π / 32 * u (64 + 1 + 1) / (2 * π)| ≥ defaultParams.turnThreshold) := by
        
          refine ⟨?_, ?_⟩
          · rw [hcur, hlast, jsFloor_abs_zero]
            norm_num
          · rw [hcur, htt]
            norm_num
        constructor
        · rw [hsf1, hlrt, if_pos hcond,
            if_neg (by norm_num : ¬(64 + 1 + 1 ≤ 65)), if_pos (by norm_num : 64 + 1 + 1 ≤ 129),
            pi32_turns, show (64 + 1 + 1 : ℕ) = 66 from rfl]
        · rw [hsf2, List.filter_append, hfil, if_pos hcond, ihfc,
            if_pos (by norm_num : 64 + 1 ≤ 65),
            if_neg (by norm_num : ¬(64 + 1 + 1 ≤ 65)), if_pos (by norm_num : 64 + 1 + 1 ≤ 129),
            pi32_turns, show (64 + 1 + 1 : ℕ) = 66 from rfl, List.nil_append]
      · by_cases hC : m + 2 ≤ 129
        · have hm64 : (m / 64 : ℕ) = 1 := by omega
          rw [hm64] at hcur
          have hlast : (runRA defaultParams 0
              (constMoves 91 (π / 32) (m + 1))).1.lastReportedTurn = u 66 / 64 := by
            rw [ihlrt, if_neg (by omega : ¬(m + 1 ≤ 65)), if_pos (by omega : m + 1 ≤ 129)]
          have hcond : ¬(jsFloor |π / 32 * u (m + 1 + 1) / (2 * π)|
                > jsFloor |(runRA defaultParams 0
                    (constMoves 91 (π / 32) (m + 1))).1.lastReportedTurn| ∧
              jsFloor |π / 32 * u (m + 1 + 1) / (2 * π)| ≥ defaultParams.turnThreshold) := by
            rw [hcur, hlast, jsFloor_u66]
            rintro ⟨hgt, -⟩
            norm_num at hgt
          constructor
          · rw [hsf1, hlrt, if_neg hcond, hlast,
              if_neg (by omega : ¬(m + 1 + 1 ≤ 65)), if_pos (by omega : m + 1 + 1 ≤ 129)]
          · rw [hsf2, List.filter_append, hfil, if_neg hcond, ihfc,
              if_neg (by omega : ¬(m + 1 ≤ 65)), if_pos (by omega : m + 1 ≤ 129),
              if_neg (by omega : ¬(m + 1 + 1 ≤ 65)), if_pos (by omega : m + 1 + 1 ≤ 129),
              List.append_nil]
        · by_cases hD : m + 2 = 130
          · have hm : m = 128 := by omega
            subst hm
            have hlast : (runRA defaultParams 0
                (constMoves 91 (π / 32) (128 + 1))).1.lastReportedTurn = u 66 / 64 := by
              rw [ihlrt, if_neg (by norm_num : ¬(128 + 1 ≤ 65)),
                if_pos (by norm_num : 128 + 1 ≤ 129)]
            have hcond : (jsFloor |π / 32 * u (128 + 1 + 1) / (2 * π)|
                  > jsFloor |(runRA defaultParams 0
                      (constMoves 91 (π / 32) (128 + 1))).1.lastReportedTurn| ∧
                jsFloor |π / 32 * u (128 + 1 + 1) / (2 * π)| ≥ defaultParams.turnThreshold) := by
              refine ⟨?_, ?_⟩
              · rw [hcur, hlast, jsFloor_u66]
                norm_num
              · rw [hcur, htt]
                norm_num
            constructor
            · rw [hsf1, hlrt, if_pos hcond,
                if_neg (by norm_num : ¬(128 + 1 + 1 ≤ 65)),
                if_neg (by norm_num : ¬(128 + 1 + 1 ≤ 129)),
                pi32_turns, show (128 + 1 + 1 : ℕ) = 130 from rfl]
            · rw [hsf2, List.filter_append, hfil, if_pos hcond, ihfc,
                if_neg (by norm_num : ¬(128 + 1 ≤ 65)), if_pos (by norm_num : 128 + 1 ≤ 129),
                if_neg (by norm_num : ¬(128 + 1 + 1 ≤ 65)),
                if_neg (by norm_num : ¬(128 + 1 + 1 ≤ 129)),
                pi32_turns, show (128 + 1 + 1 : ℕ) = 130 from rfl]
              rfl
          · have hm64 : (m / 64 : ℕ) = 2 := by omega
            rw [hm64] at hcur
            have hlast : (runRA defaultParams 0
                (constMoves 91 (π / 32) (m + 1))).1.lastReportedTurn = u 130 / 64 := by
              rw [ihlrt, if_neg (by omega : ¬(m + 1 ≤ 65)), if_neg (by omega : ¬(m + 1 ≤ 129))]
            have hcond : ¬(jsFloor |π / 32 * u (m + 1 + 1) / (2 * π)|
                  > jsFloor |(runRA defaultParams 0
                      (constMoves 91 (π / 32) (m + 1))).1.lastReportedTurn| ∧
                jsFloor |π / 32 * u (m + 1 + 1) / (2 * π)| ≥ defaultParams.turnThreshold) := by
              rw [hcur, hlast, jsFloor_u130]
              rintro ⟨hgt, -⟩
              norm_num at hgt
            constructor
            · rw [hsf1, hlrt, if_neg hcond, hlast,
                if_neg (by omega : ¬(m + 1 + 1 ≤ 65)), if_neg (by omega : ¬(m + 1 + 1 ≤ 129))]
            · rw [hsf2, List.filter_append, hfil, if_neg hcond, ihfc,
                if_neg (by omega : ¬(m + 1 ≤ 65)), if_neg (by omega : ¬(m + 1 ≤ 129)),
                if_neg (by omega : ¬(m + 1 + 1 ≤ 65)), if_neg (by omega : ¬(m + 1 + 1 ≤ 129)),
                List.append_nil]

/-- C4 counterexample: a synthetic path of exactly 3 counterclockwise
revolutions (192 samples of `π/32` at constant mid-band radius 91,
`turnThreshold = 1`) emits only 2 full-circle-completed events during
tracking, not 3: the EMA-smoothed accumulator lags the raw angle, so the
third crossing of a whole turn happens only at release. -/
theorem c4_turn_count_counterexample :
    ((192 : ℝ) * (π / 32) = 3 * (2 * π)) ∧
    (runRA defaultParams 0 (constMoves 91 (π / 32) 192)).2.countP isFC = 2 ∧
    (2 : ℕ) ≠ 3 := by
  refine ⟨by ring, ?_, by norm_num⟩
  rw [show (192 : ℕ) = 191 + 1 from rfl, List.countP_eq_length_filter,
    (c4_invariant 191 (by norm_num)).2,
    if_neg (by norm_num : ¬(191 + 1 ≤ 65)), if_neg (by norm_num : ¬(191 + 1 ≤ 129))]
  rfl

/-- The turns value carried by a rotation-changed emission is the new
accumulated angle over `2π`. -/
theorem rc_turns_eq (p : Params) (st : EngineState) (r a t : ℝ) (dd : Direction) (s : ℝ)
    (hmem : Event.rotationChanged t dd s ∈ (onUpdateRA p st r a).2) :
    t = (onUpdateRA p st r a).1.totalAngle / (2 * π) := by
  by_cases h1 : r < p.centerR * 0.05
  · rw [onUpdateRA_dead p st r a h1] at hmem
    simp at hmem
  by_cases h2 : st.lastRadius > 0 ∧ |normalizeAngle (a - st.prevAngle)| < 0.05
  · rw [onUpdateRA_micro p st r a h1 h2] at hmem
    simp at hmem
  · simp only [onUpdateRA_processed p st r a h1 h2] at hmem ⊢
    split_ifs at hmem ⊢ <;> simp_all

/-- C4 (amended): mid-gesture, full-circle-completed is emitted at a
processed sample exactly when the floor of the new |turns| both exceeds
the previously recorded floor and reaches `turnThreshold`; and the
192-sample, exactly-3-revolution counterclockwise run at constant
mid-band radius ends with `turns` within 0.03 of 3.0, emits exactly 2
full-circle-completed events during tracking with strictly increasing
floors (1, then 2), and a third is emitted counterclockwise by the `end()`
validation. -/
theorem c4_turn_accounting_amended :
    (∀ (p : Params) (st : EngineState) (r a t : ℝ) (dd : Direction) (s : ℝ),
      Event.rotationChanged t dd s ∈ (onUpdateRA p st r a).2 →
        ((∃ t2 d2, Event.fullCircleCompleted t2 d2 ∈ (onUpdateRA p st r a).2) ↔
          (jsFloor |t| > jsFloor |st.lastReportedTurn| ∧ jsFloor |t| ≥ p.turnThreshold))) ∧
    ((192 : ℝ) * (π / 32) = 3 * (2 * π)) ∧
    |(runRA defaultParams 0 (constMoves 91 (π / 32) 192)).1.totalAngle / (2 * π) - 3| < 0.03 ∧
    ((runRA defaultParams 0 (constMoves 91 (π / 32) 192)).2.filter isFC
      = [Event.fullCircleCompleted (u 66 / 64) Direction.counterclockwise,
         Event.fullCircleCompleted (u 130 / 64) Direction.counterclockwise]) ∧
    (⌊u 66 / 64⌋ < ⌊u 130 / 64⌋) ∧
    (Event.fullCircleCompleted
        ((runRA defaultParams 0 (constMoves 91 (π / 32) 192)).1.totalAngle / (2 * π))
        Direction.counterclockwise
      ∈ (onEndRA defaultParams (runRA defaultParams 0 (constMoves 91 (π / 32) 192)).1).2) := by
  have hdead : ¬((91 : ℝ) < defaultParams.centerR * 0.05) := by
    rw [show defaultParams.centerR = 140 from rfl]
    norm_num
  have hpi3 := pi_gt_three
  have hpi0 := pi_pos
  have hd05 : (0.05 : ℝ) ≤ π / 32 := by linarith
  have hdpi : π / 32 < π := by linarith
  have h192 : (192 : ℕ) = 191 + 1 := rfl
  obtain ⟨-, -, hsam, -, hM2, hband, -, -, hta⟩ :=
    constRun_state defaultParams 91 (π / 32) hdead hd05 hdpi 191
  have hx1 : (0 : ℝ) < (0.6 : ℝ) ^ (191 + 1) := by positivity
  have hx2 : (0.6 : ℝ) ^ (191 + 1) ≤ (0.6 : ℝ) ^ 3 :=
    pow_le_pow_of_le_one (by norm_num) (by norm_num) (by norm_num)
  have huv : u (191 + 1) = 192 - 1.5 * (1 - (0.6 : ℝ) ^ (191 + 1)) := by
    simp only [u]
    norm_num
  have hturns : (runRA defaultParams 0 (constMoves 91 (π / 32) (191 + 1))).1.totalAngle / (2 * π)
      = u (191 + 1) / 64 := by
    rw [hta, pi32_turns]
  refine ⟨?_, by ring, ?_, ?_, ?_, ?_⟩
  · intro p st r a t dd s hmem
    have ht := rc_turns_eq p st r a t dd s hmem
    by_cases h1 : r < p.centerR * 0.05
    · rw [onUpdateRA_dead p st r a h1] at hmem
      simp at hmem
    by_cases h2 : st.lastRadius > 0 ∧ |normalizeAngle (a - st.prevAngle)| < 0.05
    · rw [onUpdateRA_micro p st r a h1 h2] at hmem
      simp at hmem
    · obtain ⟨-, hfil, -⟩ := onUpdateRA_fire p st r a h1 h2
      rw [ht]
      constructor
      · rintro ⟨t2, d2, hm2⟩
        by_contra hcond
        rw [if_neg hcond] at hfil
        have hin : Event.fullCircleCompleted t2 d2 ∈ (onUpdateRA p st r a).2.filter isFC :=
          List.mem_filter.2 ⟨hm2, rfl⟩
        rw [hfil] at hin
        simp at hin
      · intro hcond
        rw [if_pos hcond] at hfil
        refine ⟨(onUpdateRA p st r a).1.totalAngle / (2 * π),
          (if 0.4 * normalizeAngle (a - st.prevAngle) + (1 - 0.4) * st.angularVelocity < 0
           then Direction.clockwise else Direction.counterclockwise),
          @List.mem_of_mem_filter Event isFC _ ((onUpdateRA p st r a).2) ?_⟩
        rw [hfil]
        exact List.mem_singleton_self _
  · rw [h192, hturns, huv, abs_lt]
    constructor <;> nlinarith
  · rw [h192, (c4_invariant 191 (by norm_num)).2,
      if_neg (by norm_num : ¬(191 + 1 ≤ 65)), if_neg (by norm_num : ¬(191 + 1 ≤ 129))]
  · rw [floor_u64 66 (by norm_num), floor_u64 130 (by norm_num)]
    norm_num
  · rw [h192]
    have hubig : (190.5 : ℝ) < u (191 + 1) := by
      rw [huv]
      nlinarith
    have hokTurns : |(runRA defaultParams 0
          (constMoves 91 (π / 32) (191 + 1))).1.totalAngle / (2 * π)|
        ≥ defaultParams.turnThreshold := by
      rw [hturns, show defaultParams.turnThreshold = (1 : ℝ) from rfl,
        abs_of_nonneg (by linarith : (0 : ℝ) ≤ u (191 + 1) / 64)]
      linarith
    have hvar : (if (runRA defaultParams 0 (constMoves 91 (π / 32) (191 + 1))).1.samples > 1
        then (runRA defaultParams 0 (constMoves 91 (π / 32) (191 + 1))).1.radiusM2
          / (((runRA defaultParams 0 (constMoves 91 (π / 32) (191 + 1))).1.samples : ℝ) - 1)
        else 0) ≤ (defaultParams.centerR * 0.15) ^ 2 := by
      rw [hsam, hM2, if_pos (by norm_num : 191 + 1 > 1),
        show defaultParams.centerR = 140 from rfl]
      norm_num
    have hnonneg : (0 : ℝ) ≤ (runRA defaultParams 0
        (constMoves 91 (π / 32) (191 + 1))).1.totalAngle / (2 * π) := by
      rw [hturns]
      linarith
    simp only [onEndRA]
    rw [if_pos ⟨hband, hokTurns, hvar⟩, List.singleton_append, if_neg (not_lt.2 hnonneg)]
    exact List.mem_cons_self _ _
